import Mathlib

/-! # dfxml_writer: the structured emission engine

A shallow embedding of `src/dfxml_writer.cpp` and theorems about it.

Modelling conventions.
* A `std::string` is a `List Char`; each `Char` stands for one byte of the
  C++ string (bytes `0x80..0xFF` are the characters with those code points).
* The writer object is a record of its data members.  Text sent through
  `*out` is appended to the stream that `out` points to; a write to a stream
  always succeeds (the error state of an output stream is not tracked).
* `exit(1)` and a failed `assert` end the run: an operation returns an
  `Outcome`, either `ok` with the next state or `fatal` with the state the
  writer had when the process stopped.
* Results of system calls (`gettimeofday`, `vasprintf`, opening a file) are
  arguments of the operation that makes the call.
* The mutex `M` and `flush()` have no effect on a single-threaded run and
  are left out.
-/

set_option autoImplicit false

namespace Dfxml

/-- A `std::string`: a sequence of bytes. -/
abbrev Str := List Char

/-! ## XML escapes and % encodings (source lines 109-120) -/

def xml_lt : Str := ['&', 'l', 't', ';']
def xml_gt : Str := ['&', 'g', 't', ';']
def xml_am : Str := ['&', 'a', 'm', 'p', ';']
def xml_ap : Str := ['&', 'a', 'p', 'o', 's', ';']
def xml_qu : Str := ['&', 'q', 'u', 'o', 't', ';']

def encoding_null : Str := ['%', '0', '0']
def encoding_r : Str := ['%', '0', 'D']
def encoding_n : Str := ['%', '0', 'A']
def encoding_t : Str := ['%', '0', '9']

/-- The byte `'` (0x27). -/
def apostrophe : Char := Char.ofNat 39

/-- The byte `"` (0x22). -/
def dquote : Char := Char.ofNat 34

/-- The body of the `switch(ch)` of `xmlescape`: the text appended to `ret`
for one input byte. -/
def escape_char (ch : Char) : Str :=
  if ch = '>' then xml_gt
  else if ch = '<' then xml_lt
  else if ch = '&' then xml_am
  else if ch = apostrophe then xml_ap
  else if ch = dquote then xml_qu
  else if ch = '\x00' then encoding_null
  else if ch = '\r' then encoding_r
  else if ch = '\n' then encoding_n
  else if ch = '\t' then encoding_t
  else [ch]

/-- Transcription of `dfxml_writer::xmlescape`: one pass over the input, appending to
`ret`. -/
def xmlescape (xml : Str) : Str :=
  xml.foldl (fun ret ch => ret ++ escape_char ch) []

/-- The nine bytes that `xmlescape` rewrites. -/
def special_bytes : List Char :=
  ['<', '>', '&', apostrophe, dquote, '\x00', '\r', '\n', '\t']

/-- The byte that the code at the head of the text `c :: rest` stands for, and the
length of that code; a byte that begins no code stands for itself.  (The
decoder is not part of the source; it follows the wording of the
specification.) -/
def decode_head (c : Char) (rest : Str) : Char × Nat :=
  let s := c :: rest
  if s.take 4 = xml_lt then ('<', 4)
  else if s.take 4 = xml_gt then ('>', 4)
  else if s.take 5 = xml_am then ('&', 5)
  else if s.take 6 = xml_ap then (apostrophe, 6)
  else if s.take 6 = xml_qu then (dquote, 6)
  else if s.take 3 = encoding_null then ('\x00', 3)
  else if s.take 3 = encoding_r then ('\r', 3)
  else if s.take 3 = encoding_n then ('\n', 3)
  else if s.take 3 = encoding_t then ('\t', 3)
  else (c, 1)

/-- One left-to-right pass that replaces each of the nine codes by its original
byte and copies every other byte; `skip` counts the bytes still to pass over
of the code replaced last. -/
def xmlunescape_from : Nat → Str → Str
  | _, [] => []
  | skip + 1, _ :: rest => xmlunescape_from skip rest
  | 0, c :: rest =>
    (decode_head c rest).1 :: xmlunescape_from ((decode_head c rest).2 - 1) rest

/-- Decoder used to state the round trip. -/
def xmlunescape (s : Str) : Str :=
  xmlunescape_from 0 s

/-! ## The writer object -/

/-- A `struct timeval`. -/
structure timeval where
  tv_sec : Int
  tv_usec : Int
deriving DecidableEq, Repr

/-- Order of `std::string` (`operator<`): lexicographic on unsigned bytes. -/
def str_lt : Str → Str → Bool
  | [], [] => false
  | [], _ :: _ => true
  | _ :: _, [] => false
  | a :: as, b :: bs =>
    if a.toNat < b.toNat then true
    else if b.toNat < a.toNat then false
    else str_lt as bs

/-- The method `std::set<std::string>::insert`, the set kept as the list of its elements in
iteration order (ascending, no duplicates). -/
def set_insert (tag : Str) : List Str → List Str
  | [] => [tag]
  | x :: xs =>
    if tag = x then x :: xs
    else if str_lt tag x then tag :: x :: xs
    else x :: set_insert tag xs

/-- The data members of `dfxml_writer`.  `cout` and `outf` hold the bytes sent
so far to `std::cout` and to the file stream `outf`; `out_is_outf` tells which
of the two the pointer `out` designates.  `tag_stack` has its top first. -/
structure dfxml_writer where
  cout : Str
  outf : Str
  out_is_outf : Bool
  tags : List Str
  tag_stack : List Str
  tempfilename : Str
  tempfile_template : Str
  t0 : timeval
  t_last_timestamp : timeval
  make_dtd : Bool
  outfilename : Str
  oneline : Bool
deriving DecidableEq, Repr

/-- Why the process stopped. -/
inductive Fatal where
  /-- The call `exit(1)` in `verify_tag`: the tag contains a space. -/
  | tag_contains_space
  /-- The failed `assert(tag_stack.size()>0)` of `pop`. -/
  | assertion
  /-- The call `exit(EXIT_FAILURE)` after `vasprintf` failed. -/
  | formatting
  /-- The call `exit(1)` after a file could not be opened. -/
  | cannot_open
deriving DecidableEq, Repr

/-- Result of an operation that may stop the process. -/
inductive Outcome where
  | ok (s : dfxml_writer)
  | fatal (e : Fatal) (s : dfxml_writer)
deriving DecidableEq, Repr

/-- Whether the process stopped. -/
def Outcome.failed : Outcome → Bool
  | .ok _ => false
  | .fatal _ _ => true

/-- The state carried by an outcome: the next state, or the state at the stop. -/
def Outcome.state : Outcome → dfxml_writer
  | .ok s => s
  | .fatal _ s => s

/-- Sequencing: run `f` on the state of a successful outcome. -/
def Outcome.andThen : Outcome → (dfxml_writer → Outcome) → Outcome
  | .ok s, f => f s
  | .fatal e s, _ => .fatal e s

/-- The bytes sent so far to the stream `*out`. -/
def output (s : dfxml_writer) : Str :=
  if s.out_is_outf then s.outf else s.cout

/-- Transcription of `dfxml_writer::puts`, also every `*out << v`. -/
def puts (s : dfxml_writer) (v : Str) : dfxml_writer :=
  if s.out_is_outf then { s with outf := s.outf ++ v } else { s with cout := s.cout ++ v }

def xml_header : Str := "<?xml version='1.0' encoding='UTF-8'?>\n".toList

/-- The constructor `dfxml_writer()`, writing to `std::cout`.  `now0` and `now1` are
the results of the two `gettimeofday` calls. -/
def new_stdout (now0 now1 : timeval) : dfxml_writer :=
  puts
    { cout := [], outf := [], out_is_outf := false, tags := [], tag_stack := [],
      tempfilename := [], tempfile_template := "/tmp/xml_XXXXXXXX".toList,
      t0 := now0, t_last_timestamp := now1, make_dtd := false, outfilename := [],
      oneline := false }
    xml_header

set_option linter.unusedVariables false in
/-- The constructor `dfxml_writer(outfilename_, makeDTD)`.  `is_open` is the result of
`outf.is_open()` after the file was opened for output (which empties it). -/
def new_file (outfilename_ : Str) (makeDTD : Bool) (is_open : Bool)
    (now0 now1 : timeval) : Outcome :=
  let s : dfxml_writer :=
    { cout := [], outf := [], out_is_outf := false, tags := [], tag_stack := [],
      tempfilename := [], tempfile_template := outfilename_ ++ "_tmp_XXXXXXXX".toList,
      t0 := now0, t_last_timestamp := now1, make_dtd := false,
      outfilename := outfilename_, oneline := false }
  if !is_open then .fatal .cannot_open s
  else
    let s := { s with out_is_outf := true }
    .ok (puts s xml_header)

/-- Transcription of `dfxml_writer::set_tempfile_template`. -/
def set_tempfile_template (s : dfxml_writer) (temp : Str) : dfxml_writer :=
  { s with tempfile_template := temp }

/-! ## Tags -/

/-- First statement of `verify_tag`: `if(tag[0]=='/') tag = tag.substr(1);`
(`tag[0]` of the empty string is the terminating NUL). -/
def strip_slash (tag : Str) : Str :=
  match tag with
  | '/' :: rest => rest
  | _ => tag

/-- Transcription of `dfxml_writer::verify_tag`. -/
def verify_tag (s : dfxml_writer) (tag : Str) : Outcome :=
  let tag := strip_slash tag
  if ' ' ∈ tag then .fatal .tag_contains_space s
  else .ok { s with tags := set_insert tag s.tags }

/-- The loop of `spaces`, with `k` iterations left. -/
def spaces_loop : Nat → dfxml_writer → dfxml_writer
  | 0, s => s
  | k + 1, s => if s.oneline then s else spaces_loop k (puts s [' ', ' '])

/-- Transcription of `dfxml_writer::spaces`. -/
def spaces (s : dfxml_writer) : dfxml_writer :=
  spaces_loop s.tag_stack.length s

/-- Transcription of `dfxml_writer::tagout`. -/
def tagout (s : dfxml_writer) (tag attr : Str) : Outcome :=
  (verify_tag s tag).andThen fun s =>
    let s := puts (puts s ['<']) tag
    let s := if attr.length > 0 then puts (puts s [' ']) attr else s
    .ok (puts s ['>'])

/-- Transcription of `dfxml_writer::push`. -/
def push (s : dfxml_writer) (tag attr : Str) : Outcome :=
  let s := spaces s
  let s := { s with tag_stack := tag :: s.tag_stack }
  (tagout s tag attr).andThen fun s =>
    .ok (if !s.oneline then puts s ['\n'] else s)

/-- Transcription of `dfxml_writer::pop`. -/
def pop (s : dfxml_writer) : Outcome :=
  match s.tag_stack with
  | [] => .fatal .assertion s
  | tag :: rest =>
    let s := { s with tag_stack := rest }
    let s := spaces s
    (tagout s ('/' :: tag) []).andThen fun s =>
      .ok (puts s ['\n'])

/-- Transcription of `dfxml_writer::set_oneline`. -/
def set_oneline (s : dfxml_writer) (v : Bool) : dfxml_writer :=
  let s := if v = true then spaces s else s
  let s := if v = false then puts s ['\n'] else s
  { s with oneline := v }

/-! ## The thread-safe routines -/

/-- Transcription of `dfxml_writer::comment`. -/
def comment (s : dfxml_writer) (comment_ : Str) : dfxml_writer :=
  puts (puts (puts s "<!-- ".toList) comment_) " -->\n".toList

/-- Transcription of `dfxml_writer::xmlprintf`.  `formatted` is the text produced by `vasprintf`,
or `none` when `vasprintf` returns a negative value. -/
def xmlprintf (s : dfxml_writer) (tag attr : Str) (formatted : Option Str) : Outcome :=
  let s := spaces s
  (tagout s tag attr).andThen fun s =>
    match formatted with
    | none => .fatal .formatting s
    | some ret =>
      let s := puts s ret
      (tagout s ('/' :: tag) []).andThen fun s =>
        .ok (puts s ['\n'])

/-- Transcription of `dfxml_writer::xmlout`. -/
def xmlout (s : dfxml_writer) (tag value attr : Str) (escape_value : Bool) : Outcome :=
  let s := spaces s
  let r : Outcome :=
    if value.length = 0 then
      if tag.length > 0 then tagout s tag (attr ++ ['/']) else .ok s
    else
      (if tag.length > 0 then tagout s tag attr else .ok s).andThen fun s =>
        let s := puts s (if escape_value then xmlescape value else value)
        if tag.length > 0 then tagout s ('/' :: tag) [] else .ok s
  r.andThen fun s => .ok (puts s ['\n'])

/-! ## Timestamps -/

/-- The cast `(int)x`: reduction to 32 bits, two's complement. -/
def to_int (x : Int) : Int :=
  (x + 2147483648) % 4294967296 - 2147483648

def digit_char (d : Nat) : Char := Char.ofNat (48 + d)

/-- Decimal digits of `n`, most significant first, prepended to `acc`. -/
def nat_digits_aux : Nat → Nat → Str → Str
  | 0, _, acc => acc
  | fuel + 1, n, acc =>
    if n < 10 then digit_char n :: acc
    else nat_digits_aux fuel (n / 10) (digit_char (n % 10) :: acc)

/-- Decimal digits of `n`. -/
def nat_digits (n : Nat) : Str :=
  nat_digits_aux (n + 1) n []

/-- The conversion `%d` of `printf`. -/
def fmt_d (v : Int) : Str :=
  if v < 0 then '-' :: nat_digits v.natAbs else nat_digits v.natAbs

/-- The conversion `%06d` of `printf`: at least six characters, padded with zeros
after the sign. -/
def fmt_06d (v : Int) : Str :=
  let ds := nat_digits v.natAbs
  if v < 0 then '-' :: (List.replicate (5 - ds.length) '0' ++ ds)
  else List.replicate (6 - ds.length) '0' ++ ds

/-- The block of `add_timestamp` that subtracts the reference `ref` from `t1`
(the source writes it out twice, for `t_last_timestamp` and for `t0`).  The
fields are integers without bound: the subtractions are done in `time_t` and
`suseconds_t`, which the times returned by `gettimeofday` do not overflow. -/
def timeval_delta (t1 ref : timeval) : timeval :=
  let t : timeval := { tv_sec := t1.tv_sec - ref.tv_sec, tv_usec := 0 }
  if t1.tv_usec > ref.tv_usec then
    { t with tv_usec := t1.tv_usec - ref.tv_usec }
  else
    { tv_sec := t.tv_sec - 1, tv_usec := (t1.tv_usec + 1000000) - ref.tv_usec }

/-- The call `snprintf(buf, 16, "%d.%06d", (int)t.tv_sec, (int)t.tv_usec)`: at most 15
characters are stored. -/
def fmt_timeval (t : timeval) : Str :=
  (fmt_d (to_int t.tv_sec) ++ ['.'] ++ fmt_06d (to_int t.tv_usec)).take 15

/-- Transcription of `dfxml_writer::add_timestamp`.  `t1` and `now` are the results of its two
`gettimeofday` calls. -/
def add_timestamp (s : dfxml_writer) (name : Str) (t1 now : timeval) : Outcome :=
  let delta := fmt_timeval (timeval_delta t1 s.t_last_timestamp)
  let s := { s with t_last_timestamp := now }
  let total := fmt_timeval (timeval_delta t1 s.t0)
  let ss : Str := "name='".toList ++ name ++ "' delta='".toList ++ delta
    ++ "' total='".toList ++ total ++ "'".toList
  xmlout s "timestamp".toList [] ss true

/-! ## Closing the document -/

/-- Transcription of `dfxml_writer::write_dtd`. -/
def write_dtd (s : dfxml_writer) : dfxml_writer :=
  let s := puts s "<!DOCTYPE fiwalk\n".toList
  let s := puts s "[\n".toList
  let s := s.tags.foldl
    (fun s it => puts (puts (puts s "<!ELEMENT ".toList) it) "ANY >\n".toList) s
  let s := puts s "<!ATTLIST volume startsector CDATA #IMPLIED>\n".toList
  let s := puts s "<!ATTLIST run start CDATA #IMPLIED>\n".toList
  let s := puts s "<!ATTLIST run len CDATA #IMPLIED>\n".toList
  puts s "]>\n".toList

/-- An input file stream: the bytes not yet read and the `eofbit` and `failbit`
flags. -/
structure ifstream where
  rest : Str
  eof : Bool
  fail : Bool
deriving DecidableEq, Repr

/-- The function `std::getline(in, line)`: on a stream that is not good the line is left
as it is; otherwise the bytes up to the next `\n` are moved into the line and
the `\n` is dropped; reaching the end of the input sets `eofbit` (and
`failbit` when nothing was read). -/
def getline (i : ifstream) (line : Str) : ifstream × Str :=
  if i.eof || i.fail then ({ i with fail := true }, line)
  else
    match i.rest.span (fun c => c != '\n') with
    | (l, _ :: r) => ({ i with rest := r }, l)
    | (l, []) => ({ rest := [], eof := true, fail := l.isEmpty }, l)

/-- The loop `while(!in.eof()){ getline(in,line); outf << line << std::endl; }` with
at most `fuel` iterations. -/
def copy_lines : Nat → ifstream → Str → dfxml_writer → dfxml_writer
  | 0, _, _, s => s
  | fuel + 1, i, line, s =>
    if i.eof then s
    else
      let (i, line) := getline i line
      copy_lines fuel i line { s with outf := s.outf ++ line ++ ['\n'] }

/-- Transcription of `dfxml_writer::close`.  `tempfile` is the content of the file
`tempfilename` when it can be opened for input, `reopened` tells whether
`outfilename` could be opened for output (which empties it).  Every pass of
the copy loop reads a line or sets `eofbit`, so one pass per byte and one more
is enough. -/
def close (s : dfxml_writer) (tempfile : Option Str) (reopened : Bool) : Outcome :=
  if s.make_dtd then
    match tempfile with
    | none => .fatal .cannot_open s
    | some text =>
      if !reopened then .fatal .cannot_open s
      else
        let s := { s with outf := [] }
        let i : ifstream := { rest := text, eof := false, fail := false }
        let (i, line) := getline i []
        let s := { s with outf := s.outf ++ line }
        let s := write_dtd s
        .ok (copy_lines (text.length + 1) i line s)
  else .ok s

/-! ## Sequences of calls -/

/-- One call of a public operation, with the results of the system calls it makes. -/
inductive Call where
  | push (tag attr : Str)
  | pop
  | set_oneline (v : Bool)
  | xmlout (tag value attr : Str) (escape_value : Bool)
  | xmlprintf (tag attr : Str) (formatted : Option Str)
  | comment (comment_ : Str)
  | add_timestamp (name : Str) (t1 now : timeval)
deriving DecidableEq, Repr

/-- Perform one call. -/
def Call.run (s : dfxml_writer) : Call → Outcome
  | .push tag attr => Dfxml.push s tag attr
  | .pop => Dfxml.pop s
  | .set_oneline v => .ok (Dfxml.set_oneline s v)
  | .xmlout tag value attr e => Dfxml.xmlout s tag value attr e
  | .xmlprintf tag attr f => Dfxml.xmlprintf s tag attr f
  | .comment c => .ok (Dfxml.comment s c)
  | .add_timestamp name t1 now => Dfxml.add_timestamp s name t1 now

/-- Perform the calls in order; the first one that stops the process ends the run. -/
def run_calls (s : dfxml_writer) : List Call → Outcome
  | [] => .ok s
  | c :: cs => (c.run s).andThen fun s => run_calls s cs

/-- A document as a constructor leaves it. -/
def Fresh (s : dfxml_writer) : Prop :=
  (∃ now0 now1, s = new_stdout now0 now1) ∨
  (∃ name makeDTD now0 now1, new_file name makeDTD true now0 now1 = .ok s)

/-- A state the writer can be in: a fresh document after a sequence of calls, none
of which stopped the process. -/
def Reachable (s : dfxml_writer) : Prop :=
  ∃ s0 cs, Fresh s0 ∧ run_calls s0 cs = .ok s

/-- The state `s` with the registry replaced by `tags`. -/
def with_tags (s : dfxml_writer) (tags : List Str) : dfxml_writer :=
  { s with tags := tags }

/-- The state `s` with the tag stack replaced by `stack`. -/
def with_stack (s : dfxml_writer) (stack : List Str) : dfxml_writer :=
  { s with tag_stack := stack }

/-- The indentation in front of a line: two spaces for each open element, nothing
while `oneline` is set. -/
def indentation (s : dfxml_writer) : Str :=
  if s.oneline then [] else List.replicate (2 * s.tag_stack.length) ' '

/-- The text `<tag>`, or `<tag attr>` when `attr` is not empty. -/
def tag_text (tag attr : Str) : Str :=
  ['<'] ++ tag ++ (if attr = [] then [] else [' '] ++ attr) ++ ['>']

/-! ### Nesting of the tags written by `push` and `pop` -/

/-- A call of `push` or of `pop`. -/
inductive Nesting where
  | push (name attr : Str)
  | pop
deriving DecidableEq, Repr

/-- The call of the writer that a `Nesting` step stands for. -/
def Nesting.call : Nesting → Call
  | .push name attr => Call.push name attr
  | .pop => Call.pop

/-- No `pop` is issued on an empty stack, for a sequence that starts with `depth`
open elements. -/
def no_underflow : Nat → List Nesting → Bool
  | _, [] => true
  | depth, .push _ _ :: rest => no_underflow (depth + 1) rest
  | 0, .pop :: _ => false
  | depth + 1, .pop :: rest => no_underflow depth rest

def count_push : List Nesting → Nat
  | [] => 0
  | .push _ _ :: rest => count_push rest + 1
  | .pop :: rest => count_push rest

def count_pop : List Nesting → Nat
  | [] => 0
  | .push _ _ :: rest => count_pop rest
  | .pop :: rest => count_pop rest + 1

/-- A tag as it appears in the output: `<name>` or `<name attr>`, or `</name>`. -/
inductive Tag where
  | opening (name attr : Str)
  | closing (name : Str)
deriving DecidableEq, Repr

/-- The tag that a call writes: `push(name, attr)` writes the opening tag of `name`, a `pop`
writes some closing tag. -/
def Emits : Nesting → Tag → Prop
  | .push name attr, .opening n a => n = name ∧ a = attr
  | .pop, .closing _ => True
  | _, _ => False

/-- The output lines of a sequence of tags written with `oneline` off, the first
one at nesting depth `depth`: an opening tag is indented by the depth in front
of it, a closing tag by the depth behind it. -/
def render : Nat → List Tag → Str
  | _, [] => []
  | depth, .opening name attr :: rest =>
    List.replicate (2 * depth) ' ' ++ tag_text name attr ++ ['\n'] ++ render (depth + 1) rest
  | depth, .closing name :: rest =>
    List.replicate (2 * (depth - 1)) ' ' ++ (['<', '/'] ++ name ++ ['>']) ++ ['\n']
      ++ render (depth - 1) rest

/-- Properly nested sequences of tags: every opening tag has exactly one closing tag
of the same name behind it, and what lies between the two is properly nested. -/
inductive Balanced : List Tag → Prop where
  | nil : Balanced []
  | wrap (name attr : Str) (inner : List Tag) :
      Balanced inner → Balanced (Tag.opening name attr :: inner ++ [Tag.closing name])
  | append (u v : List Tag) : Balanced u → Balanced v → Balanced (u ++ v)

/-- Checker: every `&` of the text is followed by the rest of one of the five
entities. -/
def amp_begins_entity : Str → Bool
  | [] => true
  | c :: rest =>
    (c != '&' ||
      (['l', 't', ';'].isPrefixOf rest || ['g', 't', ';'].isPrefixOf rest ||
       ['a', 'm', 'p', ';'].isPrefixOf rest || ['a', 'p', 'o', 's', ';'].isPrefixOf rest ||
       ['q', 'u', 'o', 't', ';'].isPrefixOf rest))
    && amp_begins_entity rest

/-- Some percent code of `xmlescape` occurs in `s` as literal text. -/
def has_percent_code (s : Str) : Prop :=
  encoding_null <:+: s ∨ encoding_r <:+: s ∨ encoding_n <:+: s ∨ encoding_t <:+: s

instance (s : Str) : Decidable (has_percent_code s) := by
  unfold has_percent_code; infer_instance

/-! ### Tag names from arbitrary text -/

/-- The function `isprint` of the C library in the "C" locale: the bytes 0x20 to 0x7E
(for a byte of 0x80 or more the argument `ch`, a `char`, is negative). -/
def isprint (ch : Char) : Bool :=
  decide (0x20 ≤ ch.toNat) && decide (ch.toNat ≤ 0x7E)

/-- The function `isspace` of the C library in the "C" locale: space, and TAB, LF, VT, FF,
CR (0x09 to 0x0D). -/
def isspace (ch : Char) : Bool :=
  ch == ' ' || (decide (0x09 ≤ ch.toNat) && decide (ch.toNat ≤ 0x0D))

/-- The function `tolower` of the C library in the "C" locale. -/
def tolower (ch : Char) : Char :=
  if 'A'.toNat ≤ ch.toNat ∧ ch.toNat ≤ 'Z'.toNat then Char.ofNat (ch.toNat + 32) else ch

/-- The test `strchr(str, ch) != NULL`: the byte occurs in the C string `str`, whose
terminating NUL counts as part of it. -/
def strchr (str : Str) (ch : Char) : Bool :=
  decide (ch ∈ str) || ch == '\x00'

/-- Transcription of `dfxml_writer::xmlstrip`. -/
def xmlstrip (xml : Str) : Str :=
  xml.foldl
    (fun ret ch =>
      if isprint ch && !strchr ['<', '>', '\r', '\n', '&', apostrophe, dquote] ch then
        ret ++ [if isspace ch then '_' else tolower ch]
      else ret)
    []

/-- The specification's wording for `xmlstrip`, first half: a byte is kept when it is
printable (0x20 to 0x7E) and is none of `<`, `>`, CR, LF, `&`, apostrophe,
double quote. -/
def strip_keeps (c : Char) : Bool :=
  decide (0x20 ≤ c.toNat ∧ c.toNat ≤ 0x7E) &&
    !decide (c ∈ ['<', '>', '\r', '\n', '&', apostrophe, dquote])

/-- The specification's wording for `xmlstrip`, second half: a kept space becomes `_`, a
kept upper-case letter its lower-case form, any other kept byte stays. -/
def strip_writes (c : Char) : Char :=
  if c = ' ' then '_'
  else if 0x41 ≤ c.toNat ∧ c.toNat ≤ 0x5A then Char.ofNat (c.toNat + 0x20)
  else c

/-! ### The schema block -/

/-- The line that `write_dtd` writes for the registered name `it`. -/
def element_line (it : Str) : Str :=
  "<!ELEMENT ".toList ++ it ++ "ANY >\n".toList

/-- The three fixed attribute declarations and the closing line of the schema
block. -/
def dtd_tail : Str :=
  "<!ATTLIST volume startsector CDATA #IMPLIED>\n".toList
    ++ "<!ATTLIST run start CDATA #IMPLIED>\n".toList
    ++ "<!ATTLIST run len CDATA #IMPLIED>\n".toList ++ "]>\n".toList

/-- The text of the schema block for the registry `tags`. -/
def dtd_text (tags : List Str) : Str :=
  "<!DOCTYPE fiwalk\n".toList ++ "[\n".toList ++ (tags.map element_line).flatten ++ dtd_tail

/-! ### The registry -/

/-- Every name registered in `s` is registered in the state that `o` carries. -/
def tags_kept (s : dfxml_writer) (o : Outcome) : Prop :=
  ∀ x ∈ s.tags, x ∈ o.state.tags

/-- The element names that the specification counts for a call: the name passed to
`push`, a non-empty name passed to `xmlout` or `xmlprintf`, and `timestamp` for
`add_timestamp`. -/
def named_by : Call → List Str
  | .push tag _ => [tag]
  | .xmlout tag _ _ _ => if tag = [] then [] else [tag]
  | .xmlprintf tag _ _ => if tag = [] then [] else [tag]
  | .add_timestamp _ _ _ => ["timestamp".toList]
  | _ => []

/-- The element names that the specification counts for a sequence of calls. -/
def names_of (cs : List Call) : List Str :=
  (cs.map named_by).flatten

/-- The element name of the call does not begin with `/`, and a call of `xmlprintf` has a
name that is not empty. -/
def plain_name : Call → Prop
  | .push tag _ => tag.head? ≠ some '/'
  | .xmlout tag _ _ _ => tag.head? ≠ some '/'
  | .xmlprintf tag _ _ => tag ≠ [] ∧ tag.head? ≠ some '/'
  | _ => True

/-! # Theorems -/

/-! ## Escaper -/

theorem xmlescape_foldl (s acc : Str) :
    s.foldl (fun ret ch => ret ++ escape_char ch) acc
      = acc ++ s.foldl (fun ret ch => ret ++ escape_char ch) [] := by
  induction s generalizing acc with
  | nil => simp
  | cons c s ih =>
    simp only [List.foldl_cons, List.nil_append]
    rw [ih (acc ++ escape_char c), ih (escape_char c), List.append_assoc]

@[simp] theorem xmlescape_nil : xmlescape [] = [] := rfl

theorem xmlescape_cons (c : Char) (s : Str) :
    xmlescape (c :: s) = escape_char c ++ xmlescape s := by
  unfold xmlescape
  simp only [List.foldl_cons, List.nil_append]
  exact xmlescape_foldl s (escape_char c)

theorem xmlescape_single (c : Char) : xmlescape [c] = escape_char c := by
  simp [xmlescape_cons]

theorem xmlescape_append (a b : Str) :
    xmlescape (a ++ b) = xmlescape a ++ xmlescape b := by
  induction a with
  | nil => simp
  | cons c a ih => simp [xmlescape_cons, ih]

theorem escape_char_of_not_special (c : Char) (h : c ∉ special_bytes) :
    escape_char c = [c] := by
  simp only [special_bytes, List.mem_cons, List.mem_singleton, not_or, List.mem_nil_iff,
    or_false] at h
  obtain ⟨h1, h2, h3, h4, h5, h6, h7, h8, h9⟩ := h
  simp [escape_char, h1, h2, h3, h4, h5, h6, h7, h8, h9]

/-- The ten branches of the `switch` of `xmlescape`. -/
theorem escape_char_cases (c : Char) :
    (c = '<' ∧ escape_char c = ['&', 'l', 't', ';']) ∨
    (c = '>' ∧ escape_char c = ['&', 'g', 't', ';']) ∨
    (c = '&' ∧ escape_char c = ['&', 'a', 'm', 'p', ';']) ∨
    (c = apostrophe ∧ escape_char c = ['&', 'a', 'p', 'o', 's', ';']) ∨
    (c = dquote ∧ escape_char c = ['&', 'q', 'u', 'o', 't', ';']) ∨
    (c = '\x00' ∧ escape_char c = ['%', '0', '0']) ∨
    (c = '\r' ∧ escape_char c = ['%', '0', 'D']) ∨
    (c = '\n' ∧ escape_char c = ['%', '0', 'A']) ∨
    (c = '\t' ∧ escape_char c = ['%', '0', '9']) ∨
    (c ∉ special_bytes ∧ escape_char c = [c]) := by
  by_cases hc : c ∈ special_bytes
  · simp only [special_bytes, List.mem_cons, List.mem_singleton, List.mem_nil_iff,
      or_false] at hc
    rcases hc with rfl | rfl | rfl | rfl | rfl | rfl | rfl | rfl | rfl
    · exact Or.inl ⟨rfl, by decide⟩
    · exact Or.inr (Or.inl ⟨rfl, by decide⟩)
    · exact Or.inr (Or.inr (Or.inl ⟨rfl, by decide⟩))
    · exact Or.inr (Or.inr (Or.inr (Or.inl ⟨rfl, by decide⟩)))
    · exact Or.inr (Or.inr (Or.inr (Or.inr (Or.inl ⟨rfl, by decide⟩))))
    · exact Or.inr (Or.inr (Or.inr (Or.inr (Or.inr (Or.inl ⟨rfl, by decide⟩)))))
    · exact Or.inr (Or.inr (Or.inr (Or.inr (Or.inr (Or.inr (Or.inl ⟨rfl, by decide⟩))))))
    · exact Or.inr (Or.inr (Or.inr (Or.inr (Or.inr (Or.inr (Or.inr
        (Or.inl ⟨rfl, by decide⟩)))))))
    · exact Or.inr (Or.inr (Or.inr (Or.inr (Or.inr (Or.inr (Or.inr
        (Or.inr (Or.inl ⟨rfl, by decide⟩))))))))
  · exact Or.inr (Or.inr (Or.inr (Or.inr (Or.inr (Or.inr (Or.inr
      (Or.inr (Or.inr ⟨hc, escape_char_of_not_special c hc⟩))))))))

theorem escape_char_avoids_special (c x : Char) (h : x ∈ escape_char c) :
    x = '&' ∨ x ∉ special_bytes := by
  rcases escape_char_cases c with ⟨-, e⟩ | ⟨-, e⟩ | ⟨-, e⟩ | ⟨-, e⟩ | ⟨-, e⟩ | ⟨-, e⟩ |
    ⟨-, e⟩ | ⟨-, e⟩ | ⟨-, e⟩ | ⟨hc, e⟩
  all_goals rw [e] at h
  · simp at h; rcases h with rfl | rfl | rfl | rfl <;> decide
  · simp at h; rcases h with rfl | rfl | rfl | rfl <;> decide
  · simp at h; rcases h with rfl | rfl | rfl | rfl | rfl <;> decide
  · simp at h; rcases h with rfl | rfl | rfl | rfl | rfl | rfl <;> decide
  · simp at h; rcases h with rfl | rfl | rfl | rfl | rfl | rfl <;> decide
  · simp at h; rcases h with rfl | rfl <;> decide
  · simp at h; rcases h with rfl | rfl | rfl <;> decide
  · simp at h; rcases h with rfl | rfl | rfl <;> decide
  · simp at h; rcases h with rfl | rfl | rfl <;> decide
  · simp only [List.mem_singleton] at h
    subst h
    exact Or.inr hc

theorem xmlescape_avoids_special (s : Str) (x : Char) (h : x ∈ xmlescape s) :
    x = '&' ∨ x ∉ special_bytes := by
  induction s with
  | nil => simp at h
  | cons c s ih =>
    rw [xmlescape_cons, List.mem_append] at h
    rcases h with h | h
    · exact escape_char_avoids_special c x h
    · exact ih h

theorem xmlescape_not_mem (s : Str) (x : Char) (hx : x ∈ special_bytes) (hne : x ≠ '&') :
    x ∉ xmlescape s := by
  intro hmem
  rcases xmlescape_avoids_special s x hmem with h | h
  · exact hne h
  · exact h hx

theorem amp_begins_entity_split (l : Str) (h : amp_begins_entity l = true)
    (before after : Str) (hl : l = before ++ '&' :: after) :
    ['l', 't', ';'] <+: after ∨ ['g', 't', ';'] <+: after ∨
      ['a', 'm', 'p', ';'] <+: after ∨ ['a', 'p', 'o', 's', ';'] <+: after ∨
      ['q', 'u', 'o', 't', ';'] <+: after := by
  induction before generalizing l with
  | nil =>
    subst hl
    simp only [List.nil_append, amp_begins_entity, bne_self_eq_false, Bool.false_or,
      Bool.and_eq_true, Bool.or_eq_true, List.isPrefixOf_iff_prefix] at h
    tauto
  | cons a before ih =>
    subst hl
    simp only [List.cons_append, amp_begins_entity, Bool.and_eq_true] at h
    exact ih _ h.2 rfl

theorem amp_begins_entity_escape_char (c : Char) (r : Str)
    (h : amp_begins_entity r = true) : amp_begins_entity (escape_char c ++ r) = true := by
  rcases escape_char_cases c with ⟨-, e⟩ | ⟨-, e⟩ | ⟨-, e⟩ | ⟨-, e⟩ | ⟨-, e⟩ | ⟨-, e⟩ |
    ⟨-, e⟩ | ⟨-, e⟩ | ⟨-, e⟩ | ⟨hc, e⟩
  all_goals rw [e]
  case inr.inr.inr.inr.inr.inr.inr.inr.inr =>
    have h3 : c ≠ '&' := by
      rintro rfl
      exact hc (by decide)
    simp [amp_begins_entity, h3, h]
  all_goals simpa [amp_begins_entity] using h

theorem xmlescape_amp_begins_entity (s : Str) : amp_begins_entity (xmlescape s) = true := by
  induction s with
  | nil => rfl
  | cons c s ih =>
    rw [xmlescape_cons]
    exact amp_begins_entity_escape_char c _ ih

theorem xmlescape_of_no_special (s : Str) (h : ∀ c ∈ s, c ∉ special_bytes) :
    xmlescape s = s := by
  induction s with
  | nil => rfl
  | cons c s ih =>
    rw [xmlescape_cons, escape_char_of_not_special c (h c (List.mem_cons_self c s)),
      ih (fun d hd => h d (List.mem_cons_of_mem c hd))]
    rfl

theorem xmlunescape_escape_char (c : Char) (r : Str)
    (h : c = '%' → ∀ t, r ≠ '0' :: '0' :: t ∧ r ≠ '0' :: 'D' :: t ∧ r ≠ '0' :: 'A' :: t ∧
      r ≠ '0' :: '9' :: t) :
    xmlunescape (escape_char c ++ r) = c :: xmlunescape r := by
  have e : ∀ x : Char, (∀ t, r ≠ '0' :: x :: t) → List.take 2 r ≠ ['0', x] := by
    intro x hx ht
    apply hx (r.drop 2)
    conv_lhs => rw [← List.take_append_drop 2 r, ht]
    rfl
  have e1 := fun hc => e '0' (fun t => (h hc t).1)
  have e2 := fun hc => e 'D' (fun t => (h hc t).2.1)
  have e3 := fun hc => e 'A' (fun t => (h hc t).2.2.1)
  have e4 := fun hc => e '9' (fun t => (h hc t).2.2.2)
  clear e
  rcases escape_char_cases c with ⟨rfl, e⟩ | ⟨rfl, e⟩ | ⟨rfl, e⟩ | ⟨rfl, e⟩ | ⟨rfl, e⟩ |
    ⟨rfl, e⟩ | ⟨rfl, e⟩ | ⟨rfl, e⟩ | ⟨rfl, e⟩ | ⟨hs, e⟩
  all_goals rw [e]
  case inr.inr.inr.inr.inr.inr.inr.inr.inr =>
    have h3 : c ≠ '&' := by
      rintro rfl
      exact hs (by decide)
    by_cases hc : c = '%'
    · subst hc
      replace e1 := e1 rfl
      replace e2 := e2 rfl
      replace e3 := e3 rfl
      replace e4 := e4 rfl
      simp [xml_ap, xml_qu, xmlunescape, xmlunescape_from, decode_head, xml_lt, xml_gt,
        xml_am, encoding_null, encoding_r, encoding_n, encoding_t, e1, e2, e3, e4]
    · simp [xml_ap, xml_qu, xmlunescape, xmlunescape_from, decode_head, xml_lt, xml_gt,
        xml_am, encoding_null, encoding_r, encoding_n, encoding_t, h3, hc]
  all_goals rfl

theorem escape_char_head (c : Char) :
    (∃ t, escape_char c = '&' :: t) ∨ (∃ t, escape_char c = '%' :: t) ∨
      (escape_char c = [c] ∧ c ∉ special_bytes) := by
  rcases escape_char_cases c with ⟨-, e⟩ | ⟨-, e⟩ | ⟨-, e⟩ | ⟨-, e⟩ | ⟨-, e⟩ | ⟨-, e⟩ |
    ⟨-, e⟩ | ⟨-, e⟩ | ⟨-, e⟩ | ⟨hc, e⟩
  · exact Or.inl ⟨_, e⟩
  · exact Or.inl ⟨_, e⟩
  · exact Or.inl ⟨_, e⟩
  · exact Or.inl ⟨_, e⟩
  · exact Or.inl ⟨_, e⟩
  · exact Or.inr (Or.inl ⟨_, e⟩)
  · exact Or.inr (Or.inl ⟨_, e⟩)
  · exact Or.inr (Or.inl ⟨_, e⟩)
  · exact Or.inr (Or.inl ⟨_, e⟩)
  · exact Or.inr (Or.inr ⟨e, hc⟩)

/-- The escape of `s` begins with the two bytes `a`, `b`, where `a` is not `&` or `%`
and `b` is not `&` or `%`, only if `s` itself begins with them. -/
theorem xmlescape_two_heads (s : Str) (a b : Char) (t : Str)
    (ha : a ≠ '&' ∧ a ≠ '%') (hb : b ≠ '&' ∧ b ≠ '%')
    (h : xmlescape s = a :: b :: t) : ∃ u, s = a :: b :: u := by
  cases s with
  | nil => simp at h
  | cons c s =>
    rw [xmlescape_cons] at h
    rcases escape_char_head c with ⟨u, hu⟩ | ⟨u, hu⟩ | ⟨hu, -⟩
    · rw [hu] at h; simp only [List.cons_append, List.cons.injEq] at h
      exact absurd h.1.symm ha.1
    · rw [hu] at h; simp only [List.cons_append, List.cons.injEq] at h
      exact absurd h.1.symm ha.2
    · rw [hu] at h
      simp only [List.singleton_append, List.cons.injEq] at h
      obtain ⟨rfl, h⟩ := h
      cases s with
      | nil => simp at h
      | cons d s =>
        rw [xmlescape_cons] at h
        rcases escape_char_head d with ⟨u, hu⟩ | ⟨u, hu⟩ | ⟨hu, -⟩
        · rw [hu] at h; simp only [List.cons_append, List.cons.injEq] at h
          exact absurd h.1.symm hb.1
        · rw [hu] at h; simp only [List.cons_append, List.cons.injEq] at h
          exact absurd h.1.symm hb.2
        · rw [hu] at h
          simp only [List.singleton_append, List.cons.injEq] at h
          obtain ⟨rfl, -⟩ := h
          exact ⟨s, rfl⟩

theorem has_percent_code_cons (c : Char) (s : Str) (h : ¬ has_percent_code (c :: s)) :
    ¬ has_percent_code s := by
  intro hs
  apply h
  unfold has_percent_code at hs ⊢
  rcases hs with hs | hs | hs | hs
  · exact Or.inl (hs.trans (List.infix_cons (List.infix_refl s)))
  · exact Or.inr (Or.inl (hs.trans (List.infix_cons (List.infix_refl s))))
  · exact Or.inr (Or.inr (Or.inl (hs.trans (List.infix_cons (List.infix_refl s)))))
  · exact Or.inr (Or.inr (Or.inr (hs.trans (List.infix_cons (List.infix_refl s)))))

theorem xmlunescape_xmlescape (s : Str) (h : ¬ has_percent_code s) :
    xmlunescape (xmlescape s) = s := by
  induction s with
  | nil => rfl
  | cons c s ih =>
    rw [xmlescape_cons, xmlunescape_escape_char, ih (has_percent_code_cons c s h)]
    rintro rfl t
    have pre : ∀ x : Char, x ≠ '&' ∧ x ≠ '%' → xmlescape s = '0' :: x :: t →
        ['%', '0', x] <:+: ('%' :: s) := by
      intro x hx hs
      obtain ⟨u, rfl⟩ := xmlescape_two_heads s '0' x t (by decide) hx hs
      exact (List.prefix_append ['%', '0', x] u).isInfix
    refine ⟨fun hs => h ?_, fun hs => h ?_, fun hs => h ?_, fun hs => h ?_⟩
    · exact Or.inl (pre '0' (by decide) hs)
    · exact Or.inr (Or.inl (pre 'D' (by decide) hs))
    · exact Or.inr (Or.inr (Or.inl (pre 'A' (by decide) hs)))
    · exact Or.inr (Or.inr (Or.inr (pre '9' (by decide) hs)))

/-- Claim C1, counterexample: the three bytes `%00` and the single byte NUL are
different inputs with the same escape `%00`, so no decoder recovers both, and
the left-to-right decoder maps the escape of `%00` to NUL. -/
theorem xmlescape_not_injective :
    xmlescape ['%', '0', '0'] = xmlescape ['\x00'] ∧ ['%', '0', '0'] ≠ ['\x00'] ∧
    xmlunescape (xmlescape ['%', '0', '0']) ≠ ['%', '0', '0'] := by
  decide

/-- Claim C1, amended: for every input `s` in which none of the four percent codes
`%00` `%0D` `%0A` `%09` occurs as literal text, replacing in `xmlescape s`, from
left to right, each of the nine codes by its original byte recovers `s`; and
`xmlescape` is injective on such inputs. -/
theorem xmlescape_round_trip (s : Str) (hs : ¬ has_percent_code s) :
    xmlunescape (xmlescape s) = s ∧
    ∀ s2 : Str, ¬ has_percent_code s2 → xmlescape s = xmlescape s2 → s = s2 := by
  refine ⟨xmlunescape_xmlescape s hs, fun s2 hs2 heq => ?_⟩
  rw [← xmlunescape_xmlescape s hs, ← xmlunescape_xmlescape s2 hs2, heq]

/-- Instance of the amended C1 at the input `a<%&`, compared with `a<`. -/
theorem xmlescape_round_trip_witness :
    ¬ has_percent_code ['a', '<', '%', '&'] ∧
    xmlunescape (xmlescape ['a', '<', '%', '&']) = ['a', '<', '%', '&'] ∧
    (xmlescape ['a', '<', '%', '&'] = xmlescape ['a', '<'] →
      ['a', '<', '%', '&'] = ['a', '<']) :=
  ⟨by decide, (xmlescape_round_trip ['a', '<', '%', '&'] (by decide)).1,
   (xmlescape_round_trip ['a', '<', '%', '&'] (by decide)).2 ['a', '<'] (by decide)⟩

/-- Claim C2, counterexample: the escape of `<` is `&lt;`, which contains the byte
`&`. -/
theorem xmlescape_output_contains_amp : '&' ∈ xmlescape ['<'] := by decide

/-- Claim C2, amended: for every input `s`, `xmlescape s` contains none of the bytes
`<`, `>`, apostrophe, double quote, NUL, CR, LF, TAB, and every `&` in it is the
first byte of one of the entities `&lt;` `&gt;` `&amp;` `&apos;` `&quot;`. -/
theorem xmlescape_output_bytes (s : Str) :
    '<' ∉ xmlescape s ∧ '>' ∉ xmlescape s ∧
    apostrophe ∉ xmlescape s ∧ dquote ∉ xmlescape s ∧ '\x00' ∉ xmlescape s ∧
    '\r' ∉ xmlescape s ∧ '\n' ∉ xmlescape s ∧ '\t' ∉ xmlescape s ∧
    (∀ before after : Str, xmlescape s = before ++ '&' :: after →
      ['l', 't', ';'] <+: after ∨ ['g', 't', ';'] <+: after ∨
      ['a', 'm', 'p', ';'] <+: after ∨ ['a', 'p', 'o', 's', ';'] <+: after ∨
      ['q', 'u', 'o', 't', ';'] <+: after) := by
  have key : ∀ x, x ∈ special_bytes → x ≠ '&' → x ∉ xmlescape s :=
    fun x hx hne => xmlescape_not_mem s x hx hne
  refine ⟨key _ ?_ ?_, key _ ?_ ?_, key _ ?_ ?_, key _ ?_ ?_, key _ ?_ ?_, key _ ?_ ?_,
    key _ ?_ ?_, key _ ?_ ?_, ?_⟩
  any_goals decide
  intro before after h
  exact amp_begins_entity_split _ (xmlescape_amp_begins_entity s) before after h

/-- Instance of the amended C2 at the input `a&b`, whose escape is `a&amp;b`. -/
theorem xmlescape_output_bytes_witness :
    xmlescape ['a', '&', 'b'] = ['a'] ++ '&' :: ['a', 'm', 'p', ';', 'b'] ∧
    (['l', 't', ';'] <+: ['a', 'm', 'p', ';', 'b'] ∨
      ['g', 't', ';'] <+: ['a', 'm', 'p', ';', 'b'] ∨
      ['a', 'm', 'p', ';'] <+: ['a', 'm', 'p', ';', 'b'] ∨
      ['a', 'p', 'o', 's', ';'] <+: ['a', 'm', 'p', ';', 'b'] ∨
      ['q', 'u', 'o', 't', ';'] <+: ['a', 'm', 'p', ';', 'b']) :=
  ⟨by decide,
   (xmlescape_output_bytes ['a', '&', 'b']).2.2.2.2.2.2.2.2 ['a'] ['a', 'm', 'p', ';', 'b']
     (by decide)⟩

/-- Claim C3: `xmlescape` maps each byte on its own and in order: `>` to `&gt;`, `<` to
`&lt;`, `&` to `&amp;`, apostrophe to `&apos;`, double quote to `&quot;`, NUL to
`%00`, CR to `%0D`, LF to `%0A`, TAB to `%09` and every other byte to itself; the
escape of a string is the concatenation of the escapes of its bytes, so
`xmlescape (a ++ b) = xmlescape a ++ xmlescape b`, and a string without any of
the nine special bytes is returned unchanged. -/
theorem xmlescape_bytewise :
    xmlescape ['>'] = ['&', 'g', 't', ';'] ∧
    xmlescape ['<'] = ['&', 'l', 't', ';'] ∧
    xmlescape ['&'] = ['&', 'a', 'm', 'p', ';'] ∧
    xmlescape [apostrophe] = ['&', 'a', 'p', 'o', 's', ';'] ∧
    xmlescape [dquote] = ['&', 'q', 'u', 'o', 't', ';'] ∧
    xmlescape ['\x00'] = ['%', '0', '0'] ∧
    xmlescape ['\r'] = ['%', '0', 'D'] ∧
    xmlescape ['\n'] = ['%', '0', 'A'] ∧
    xmlescape ['\t'] = ['%', '0', '9'] ∧
    (∀ c : Char, c ∉ special_bytes → xmlescape [c] = [c]) ∧
    (∀ (c : Char) (s : Str), xmlescape (c :: s) = xmlescape [c] ++ xmlescape s) ∧
    (∀ a b : Str, xmlescape (a ++ b) = xmlescape a ++ xmlescape b) ∧
    (∀ s : Str, (∀ c ∈ s, c ∉ special_bytes) → xmlescape s = s) := by
  refine ⟨by decide, by decide, by decide, by decide, by decide, by decide, by decide,
    by decide, by decide, ?_, ?_, xmlescape_append, xmlescape_of_no_special⟩
  · intro c hc
    rw [xmlescape_single, escape_char_of_not_special c hc]
  · intro c s
    rw [xmlescape_cons, xmlescape_single]

/-- Instance of C3 at the bytes `é` (0xE9), `a` and the strings `a<`, `b&`. -/
theorem xmlescape_bytewise_witness :
    xmlescape [Char.ofNat 233] = [Char.ofNat 233] ∧
    xmlescape ['a', 'b'] = ['a', 'b'] ∧
    xmlescape (['a', '<'] ++ ['b', '&']) = xmlescape ['a', '<'] ++ xmlescape ['b', '&'] :=
  ⟨xmlescape_bytewise.2.2.2.2.2.2.2.2.2.1 (Char.ofNat 233) (by decide),
   xmlescape_bytewise.2.2.2.2.2.2.2.2.2.2.2.2 ['a', 'b'] (by decide),
   xmlescape_bytewise.2.2.2.2.2.2.2.2.2.2.2.1 ['a', '<'] ['b', '&']⟩

/-! ## Streams, indentation and tags -/

@[simp] theorem output_puts (s : dfxml_writer) (v : Str) :
    output (puts s v) = output s ++ v := by
  unfold output puts
  split <;> simp_all

@[simp] theorem puts_tags (s : dfxml_writer) (v : Str) : (puts s v).tags = s.tags := by
  unfold puts; split <;> rfl

@[simp] theorem puts_tag_stack (s : dfxml_writer) (v : Str) :
    (puts s v).tag_stack = s.tag_stack := by
  unfold puts; split <;> rfl

@[simp] theorem puts_oneline (s : dfxml_writer) (v : Str) :
    (puts s v).oneline = s.oneline := by
  unfold puts; split <;> rfl

@[simp] theorem puts_make_dtd (s : dfxml_writer) (v : Str) :
    (puts s v).make_dtd = s.make_dtd := by
  unfold puts; split <;> rfl

@[simp] theorem puts_out_is_outf (s : dfxml_writer) (v : Str) :
    (puts s v).out_is_outf = s.out_is_outf := by
  unfold puts; split <;> rfl

theorem puts_puts (s : dfxml_writer) (a b : Str) : puts (puts s a) b = puts s (a ++ b) := by
  unfold puts
  cases h : s.out_is_outf <;> simp [h]

@[simp] theorem puts_nil (s : dfxml_writer) : puts s [] = s := by
  unfold puts
  split <;> simp

theorem spaces_loop_eq (k : Nat) (s : dfxml_writer) :
    spaces_loop k s = puts s (if s.oneline then [] else List.replicate (2 * k) ' ') := by
  induction k generalizing s with
  | zero => simp [spaces_loop]
  | succ k ih =>
    unfold spaces_loop
    cases h : s.oneline
    · simp only [Bool.false_eq_true, if_false]
      rw [ih, puts_puts]
      simp only [puts_oneline, h, Bool.false_eq_true, if_false]
      congr 1
    · simp

theorem spaces_eq (s : dfxml_writer) : spaces s = puts s (indentation s) := by
  unfold spaces indentation
  exact spaces_loop_eq _ s

theorem mem_strip_slash (tag : Str) : ' ' ∈ strip_slash tag ↔ ' ' ∈ tag := by
  unfold strip_slash
  split
  · simp
  · rfl

@[simp] theorem strip_slash_cons_slash (tag : Str) : strip_slash ('/' :: tag) = tag := rfl

theorem strip_slash_of_head (tag : Str) (h : tag.head? ≠ some '/') :
    strip_slash tag = tag := by
  unfold strip_slash
  split
  · simp at h
  · rfl

theorem mem_set_insert (x tag : Str) (l : List Str) :
    x ∈ set_insert tag l ↔ x = tag ∨ x ∈ l := by
  induction l with
  | nil => simp [set_insert]
  | cons y l ih =>
    unfold set_insert
    split_ifs with h1 h2
    · subst h1; simp
    · simp
    · simp only [List.mem_cons, ih]; tauto

@[simp] theorem with_tags_tags (s : dfxml_writer) (T : List Str) :
    (with_tags s T).tags = T := rfl

@[simp] theorem with_tags_tag_stack (s : dfxml_writer) (T : List Str) :
    (with_tags s T).tag_stack = s.tag_stack := rfl

@[simp] theorem with_tags_oneline (s : dfxml_writer) (T : List Str) :
    (with_tags s T).oneline = s.oneline := rfl

@[simp] theorem with_tags_make_dtd (s : dfxml_writer) (T : List Str) :
    (with_tags s T).make_dtd = s.make_dtd := rfl

@[simp] theorem output_with_tags (s : dfxml_writer) (T : List Str) :
    output (with_tags s T) = output s := rfl

@[simp] theorem indentation_with_tags (s : dfxml_writer) (T : List Str) :
    indentation (with_tags s T) = indentation s := rfl

@[simp] theorem with_tags_with_tags (s : dfxml_writer) (T U : List Str) :
    with_tags (with_tags s T) U = with_tags s U := rfl

@[simp] theorem puts_with_tags (s : dfxml_writer) (T : List Str) (v : Str) :
    puts (with_tags s T) v = with_tags (puts s v) T := by
  unfold puts with_tags
  cases h : s.out_is_outf <;> simp [h]

@[simp] theorem with_stack_tag_stack (s : dfxml_writer) (K : List Str) :
    (with_stack s K).tag_stack = K := rfl

@[simp] theorem with_stack_tags (s : dfxml_writer) (K : List Str) :
    (with_stack s K).tags = s.tags := rfl

@[simp] theorem with_stack_oneline (s : dfxml_writer) (K : List Str) :
    (with_stack s K).oneline = s.oneline := rfl

@[simp] theorem with_stack_make_dtd (s : dfxml_writer) (K : List Str) :
    (with_stack s K).make_dtd = s.make_dtd := rfl

@[simp] theorem output_with_stack (s : dfxml_writer) (K : List Str) :
    output (with_stack s K) = output s := rfl

@[simp] theorem puts_with_stack (s : dfxml_writer) (K : List Str) (v : Str) :
    puts (with_stack s K) v = with_stack (puts s v) K := by
  unfold puts with_stack
  cases h : s.out_is_outf <;> simp [h]

@[simp] theorem with_tags_with_stack (s : dfxml_writer) (K T : List Str) :
    with_tags (with_stack s K) T = with_stack (with_tags s T) K := rfl

@[simp] theorem indentation_puts (s : dfxml_writer) (v : Str) :
    indentation (puts s v) = indentation s := by
  simp [indentation]

theorem verify_tag_eq (s : dfxml_writer) (tag : Str) :
    verify_tag s tag =
      if ' ' ∈ tag then .fatal .tag_contains_space s
      else .ok (with_tags s (set_insert (strip_slash tag) s.tags)) := by
  unfold verify_tag
  simp only [mem_strip_slash]
  rfl

theorem tagout_eq (s : dfxml_writer) (tag attr : Str) :
    tagout s tag attr =
      if ' ' ∈ tag then .fatal .tag_contains_space s
      else .ok (with_tags (puts s (tag_text tag attr))
        (set_insert (strip_slash tag) s.tags)) := by
  unfold tagout
  rw [verify_tag_eq]
  by_cases h : ' ' ∈ tag
  · simp [h, Outcome.andThen]
  · simp only [h, if_false, Outcome.andThen, tag_text]
    cases attr with
    | nil => simp [puts_puts]
    | cons a attr => simp [puts_puts]

theorem andThen_eq_ok (o : Outcome) (f : dfxml_writer → Outcome) (s' : dfxml_writer) :
    o.andThen f = .ok s' ↔ ∃ s1, o = .ok s1 ∧ f s1 = .ok s' := by
  cases o <;> simp [Outcome.andThen]

theorem not_mem_replicate_space (n : Nat) : '\n' ∉ List.replicate n ' ' := by
  intro h
  exact absurd (List.eq_of_mem_replicate h) (by decide)

theorem newline_not_mem_indentation (s : dfxml_writer) : '\n' ∉ indentation s := by
  unfold indentation
  split
  · simp
  · exact not_mem_replicate_space _

/-! ## Leaf elements -/

theorem no_space_slash_cons (tag : Str) (h : ' ' ∉ tag) : ' ' ∉ '/' :: tag := by
  simp only [List.mem_cons, not_or]
  exact ⟨by decide, h⟩

theorem xmlout_value_eq (s : dfxml_writer) (tag value attr : Str) (escape : Bool)
    (htag : tag ≠ []) (hspace : ' ' ∉ tag) (hvalue : value ≠ []) :
    xmlout s tag value attr escape =
      .ok (with_tags
        (puts s (indentation s ++ tag_text tag attr
          ++ (if escape then xmlescape value else value) ++ (['<', '/'] ++ tag ++ ['>'])
          ++ ['\n']))
        (set_insert tag (set_insert (strip_slash tag) s.tags))) := by
  have hlen : tag.length > 0 := List.length_pos.mpr htag
  have hv : value.length ≠ 0 := fun h => hvalue (List.length_eq_zero.mp h)
  have hsl := no_space_slash_cons tag hspace
  unfold xmlout
  simp only [hv, hlen, if_true, if_false, tagout_eq, hspace, hsl, Outcome.andThen,
    spaces_eq, puts_with_tags, puts_puts, with_tags_with_tags, puts_tags, with_tags_tags,
    strip_slash_cons_slash]
  simp [tag_text]

theorem xmlout_empty_eq (s : dfxml_writer) (tag attr : Str)
    (escape : Bool) (htag : tag ≠ []) (hspace : ' ' ∉ tag) :
    xmlout s tag [] attr escape =
      .ok (with_tags
        (puts s (indentation s ++ (['<'] ++ tag ++ [' '] ++ attr ++ ['/', '>']) ++ ['\n']))
        (set_insert (strip_slash tag) s.tags)) := by
  have hlen : tag.length > 0 := List.length_pos.mpr htag
  unfold xmlout
  simp only [List.length_nil, hlen, if_true, tagout_eq, hspace, if_false,
    Outcome.andThen, spaces_eq, puts_with_tags, puts_puts, puts_tags]
  simp [tag_text]

/-- Claim C4: for every document state, every non-empty tag without a space, every
attribute string and every non-empty value, `xmlout` succeeds and appends to
the output exactly the indentation, the open tag (`<tag>`, or `<tag attr>` when
the attribute string is not empty), the body (`xmlescape value` when `escape`
is true, the value as it is otherwise), the close tag `</tag>` and one `\n`;
with `escape` true and no line break in the tag or the attribute string, the
text in front of that final `\n` contains no `\n`. -/
theorem xmlout_with_value (s : dfxml_writer) (tag value attr : Str) (escape : Bool)
    (htag : tag ≠ []) (hspace : ' ' ∉ tag) (hvalue : value ≠ []) :
    ∃ s', xmlout s tag value attr escape = .ok s' ∧
      output s' = output s ++
        (indentation s ++ tag_text tag attr ++ (if escape then xmlescape value else value)
          ++ (['<', '/'] ++ tag ++ ['>'])) ++ ['\n'] ∧
      (escape = true → '\n' ∉ tag → '\n' ∉ attr →
        '\n' ∉ indentation s ++ tag_text tag attr ++ (if escape then xmlescape value else value)
          ++ (['<', '/'] ++ tag ++ ['>'])) := by
  refine ⟨_, xmlout_value_eq s tag value attr escape htag hspace hvalue, ?_, ?_⟩
  · simp
  · intro he hnt hna
    subst he
    have h2 := xmlescape_not_mem value '\n' (by decide) (by decide)
    have h1 := newline_not_mem_indentation s
    simp only [tag_text, if_true, List.mem_append, List.mem_cons, List.mem_singleton,
      List.mem_nil_iff, or_false, not_or]
    refine ⟨⟨⟨h1, ⟨⟨by decide, hnt⟩, ?_⟩, by decide⟩, h2⟩, ⟨⟨by decide, by decide⟩, hnt⟩,
      by decide⟩
    split
    · simp
    · simp only [List.mem_append, List.mem_singleton, not_or]
      exact ⟨by decide, hna⟩

/-- Instance of C4: `xmlout("x", "5")` in a fresh document. -/
theorem xmlout_with_value_witness :
    ∃ s', xmlout (new_stdout ⟨0, 0⟩ ⟨0, 0⟩) ['x'] ['5'] [] true = .ok s' ∧
      output s' = output (new_stdout ⟨0, 0⟩ ⟨0, 0⟩) ++
        (indentation (new_stdout ⟨0, 0⟩ ⟨0, 0⟩) ++ tag_text ['x'] []
          ++ (if true then xmlescape ['5'] else ['5']) ++ (['<', '/'] ++ ['x'] ++ ['>']))
        ++ ['\n'] ∧
      (true = true → '\n' ∉ ['x'] → '\n' ∉ ([] : Str) →
        '\n' ∉ indentation (new_stdout ⟨0, 0⟩ ⟨0, 0⟩) ++ tag_text ['x'] []
          ++ (if true then xmlescape ['5'] else ['5']) ++ (['<', '/'] ++ ['x'] ++ ['>'])) :=
  xmlout_with_value (new_stdout ⟨0, 0⟩ ⟨0, 0⟩) ['x'] ['5'] [] true (by decide) (by decide)
    (by decide)

/-- Claim C5, counterexample: in a fresh document `xmlout("/x", "")` succeeds, yet
the tag `/x` (not empty, no space) is not in the registry afterwards: the
registry holds `x`. -/
theorem xmlout_slash_tag_not_registered :
    (xmlout (new_stdout ⟨0, 0⟩ ⟨0, 0⟩) ['/', 'x'] [] [] true).failed = false ∧
    ['/', 'x'] ∉ (xmlout (new_stdout ⟨0, 0⟩ ⟨0, 0⟩) ['/', 'x'] [] [] true).state.tags ∧
    (xmlout (new_stdout ⟨0, 0⟩ ⟨0, 0⟩) ['/', 'x'] [] [] true).state.tags = [['x']] := by
  decide

/-- Claim C5, amended: for every document state, every non-empty tag without a space
and every attribute string, `xmlout(tag, "", attr)` succeeds and appends exactly
the indentation, the self-closing element `<` tag ` ` attr `/>` and one `\n`,
with no closing tag; afterwards the registry contains the tag with one leading
`/` removed, which is the tag itself when it does not begin with `/`. -/
theorem xmlout_empty_value (s : dfxml_writer) (tag attr : Str) (escape : Bool)
    (htag : tag ≠ []) (hspace : ' ' ∉ tag) :
    ∃ s', xmlout s tag [] attr escape = .ok s' ∧
      output s' = output s ++ indentation s ++ (['<'] ++ tag ++ [' '] ++ attr ++ ['/', '>'])
        ++ ['\n'] ∧
      strip_slash tag ∈ s'.tags ∧
      (tag.head? ≠ some '/' → tag ∈ s'.tags) := by
  refine ⟨_, xmlout_empty_eq s tag attr escape htag hspace, ?_, ?_, ?_⟩
  · simp
  · simp [mem_set_insert]
  · intro h
    simp [mem_set_insert, strip_slash_of_head tag h]

/-- Instance of the amended C5: `xmlout("x", "")` in a fresh document. -/
theorem xmlout_empty_value_witness :
    ∃ s', xmlout (new_stdout ⟨0, 0⟩ ⟨0, 0⟩) ['x'] [] [] true = .ok s' ∧
      output s' = output (new_stdout ⟨0, 0⟩ ⟨0, 0⟩) ++ indentation (new_stdout ⟨0, 0⟩ ⟨0, 0⟩)
        ++ (['<'] ++ ['x'] ++ [' '] ++ [] ++ ['/', '>']) ++ ['\n'] ∧
      strip_slash ['x'] ∈ s'.tags ∧
      ((['x'] : Str).head? ≠ some '/' → ['x'] ∈ s'.tags) :=
  xmlout_empty_value (new_stdout ⟨0, 0⟩ ⟨0, 0⟩) ['x'] [] true (by decide) (by decide)

/-! ## Tag validation -/

/-- Claim C7: `verify_tag` stops the process exactly when the name contains a space,
and then with the configuration error; one leading `/` is removed before the
check and does not change the outcome; when `verify_tag` succeeds the name
without that leading `/` is in the registry afterwards. -/
theorem verify_tag_fails_iff_space (s : dfxml_writer) (name : Str) :
    ((verify_tag s name).failed = true ↔ ' ' ∈ name) ∧
    (' ' ∈ name → verify_tag s name = .fatal .tag_contains_space s) ∧
    ((verify_tag s ('/' :: name)).failed = (verify_tag s name).failed) ∧
    (∀ s', verify_tag s ('/' :: name) = .ok s' → name ∈ s'.tags) ∧
    (∀ s', verify_tag s name = .ok s' → strip_slash name ∈ s'.tags) := by
  have hsl : ' ' ∈ '/' :: name ↔ ' ' ∈ name := by
    simp only [List.mem_cons, or_iff_right_iff_imp]
    intro h
    exact absurd h (by decide)
  refine ⟨?_, ?_, ?_, ?_, ?_⟩
  · rw [verify_tag_eq]
    split <;> simp_all [Outcome.failed]
  · intro h
    rw [verify_tag_eq, if_pos h]
  · rw [verify_tag_eq, verify_tag_eq]
    by_cases h : ' ' ∈ name
    · rw [if_pos h, if_pos (hsl.mpr h)]
    · rw [if_neg h, if_neg (fun h' => h (hsl.mp h'))]
      rfl
  · intro s' h
    rw [verify_tag_eq] at h
    split at h
    · simp at h
    · simp only [Outcome.ok.injEq] at h
      subst h
      simp [mem_set_insert]
  · intro s' h
    rw [verify_tag_eq] at h
    split at h
    · simp at h
    · simp only [Outcome.ok.injEq] at h
      subst h
      simp [mem_set_insert]

/-- Instance of C7 at the names `a b` (rejected) and `x` (registered). -/
theorem verify_tag_fails_iff_space_witness :
    verify_tag (new_stdout ⟨0, 0⟩ ⟨0, 0⟩) ['a', ' ', 'b']
      = .fatal .tag_contains_space (new_stdout ⟨0, 0⟩ ⟨0, 0⟩) ∧
    (∀ s', verify_tag (new_stdout ⟨0, 0⟩ ⟨0, 0⟩) ['/', 'x'] = .ok s' → ['x'] ∈ s'.tags) :=
  ⟨(verify_tag_fails_iff_space (new_stdout ⟨0, 0⟩ ⟨0, 0⟩) ['a', ' ', 'b']).2.1 (by decide),
   (verify_tag_fails_iff_space (new_stdout ⟨0, 0⟩ ⟨0, 0⟩) ['x']).2.2.2.1⟩

/-! ## push and pop -/

theorem push_eq (s : dfxml_writer) (tag attr : Str) :
    push s tag attr =
      if ' ' ∈ tag then
        .fatal .tag_contains_space (with_stack (puts s (indentation s)) (tag :: s.tag_stack))
      else
        .ok (with_tags
          (with_stack
            (puts s (indentation s ++ tag_text tag attr ++ (if s.oneline then [] else ['\n'])))
            (tag :: s.tag_stack))
          (set_insert (strip_slash tag) s.tags)) := by
  have h0 : push s tag attr =
      (tagout (with_stack (spaces s) (tag :: (spaces s).tag_stack)) tag attr).andThen fun s =>
        .ok (if !s.oneline then puts s ['\n'] else s) := rfl
  rw [h0, tagout_eq, spaces_eq]
  by_cases h : ' ' ∈ tag
  · simp [h, Outcome.andThen]
  · simp only [h, if_false, Outcome.andThen, puts_with_stack, puts_puts, puts_tag_stack,
      with_stack_tags, puts_tags, with_tags_oneline, with_stack_oneline, puts_oneline,
      with_tags_with_stack, List.append_assoc]
    cases ho : s.oneline <;> simp [puts_puts]

theorem pop_eq (s : dfxml_writer) (top : Str) (rest : List Str)
    (h : s.tag_stack = top :: rest) (hspace : ' ' ∉ top) :
    pop s =
      .ok (with_tags
        (with_stack
          (puts s ((if s.oneline then [] else List.replicate (2 * rest.length) ' ')
            ++ (['<', '/'] ++ top ++ ['>']) ++ ['\n']))
          rest)
        (set_insert top s.tags)) := by
  have h0 : pop s =
      match s.tag_stack with
      | [] => .fatal .assertion s
      | tag :: rest =>
        (tagout (spaces (with_stack s rest)) ('/' :: tag) []).andThen fun s =>
          .ok (puts s ['\n']) := rfl
  rw [h0, h]
  simp only [tagout_eq, spaces_eq, no_space_slash_cons top hspace, if_false, Outcome.andThen,
    puts_with_stack, puts_with_tags, puts_puts, with_stack_tags, puts_tags,
    strip_slash_cons_slash, with_tags_with_stack]
  simp [indentation, tag_text]

theorem tagout_tag_stack (s s' : dfxml_writer) (tag attr : Str)
    (h : tagout s tag attr = .ok s') : s'.tag_stack = s.tag_stack := by
  rw [tagout_eq] at h
  split at h
  · simp at h
  · simp only [Outcome.ok.injEq] at h
    subst h
    simp

theorem xmlout_tag_stack (s s' : dfxml_writer) (tag value attr : Str) (e : Bool)
    (h : xmlout s tag value attr e = .ok s') : s'.tag_stack = s.tag_stack := by
  unfold xmlout at h
  simp only [andThen_eq_ok, Outcome.ok.injEq] at h
  obtain ⟨s1, h1, rfl⟩ := h
  have hsp : (spaces s).tag_stack = s.tag_stack := by rw [spaces_eq]; simp
  rw [puts_tag_stack, ← hsp]
  split at h1
  · split at h1
    · exact tagout_tag_stack _ _ _ _ h1
    · simp only [Outcome.ok.injEq] at h1
      rw [h1]
  · simp only [andThen_eq_ok] at h1
    obtain ⟨s2, h2, h3⟩ := h1
    have e2 : s2.tag_stack = (spaces s).tag_stack := by
      split at h2
      · exact tagout_tag_stack _ _ _ _ h2
      · simp only [Outcome.ok.injEq] at h2
        rw [h2]
    split at h3
    · rw [tagout_tag_stack _ _ _ _ h3, puts_tag_stack, e2]
    · simp only [Outcome.ok.injEq] at h3
      rw [← h3, puts_tag_stack, e2]

theorem xmlprintf_tag_stack (s s' : dfxml_writer) (tag attr : Str) (f : Option Str)
    (h : xmlprintf s tag attr f = .ok s') : s'.tag_stack = s.tag_stack := by
  unfold xmlprintf at h
  simp only [andThen_eq_ok] at h
  obtain ⟨s1, h1, h2⟩ := h
  have hsp : (spaces s).tag_stack = s.tag_stack := by rw [spaces_eq]; simp
  have e1 := tagout_tag_stack _ _ _ _ h1
  cases f with
  | none => simp at h2
  | some ret =>
    simp only [andThen_eq_ok, Outcome.ok.injEq] at h2
    obtain ⟨s2, h3, rfl⟩ := h2
    rw [puts_tag_stack, tagout_tag_stack _ _ _ _ h3, puts_tag_stack, e1, hsp]

theorem add_timestamp_tag_stack (s s' : dfxml_writer) (name : Str) (t1 now : timeval)
    (h : add_timestamp s name t1 now = .ok s') : s'.tag_stack = s.tag_stack := by
  simp only [add_timestamp] at h
  exact (xmlout_tag_stack _ _ _ _ _ _ h).trans rfl

theorem set_oneline_tag_stack (s : dfxml_writer) (v : Bool) :
    (set_oneline s v).tag_stack = s.tag_stack := by
  cases v <;> simp [set_oneline, spaces_eq]

theorem comment_tag_stack (s : dfxml_writer) (c : Str) :
    (comment s c).tag_stack = s.tag_stack := by
  simp [comment]

theorem pop_ok_stack (s s' : dfxml_writer) (h : pop s = .ok s') :
    ∃ top, s.tag_stack = top :: s'.tag_stack := by
  have h0 : pop s =
      match s.tag_stack with
      | [] => .fatal .assertion s
      | tag :: rest =>
        (tagout (spaces (with_stack s rest)) ('/' :: tag) []).andThen fun s =>
          .ok (puts s ['\n']) := rfl
  rw [h0] at h
  cases hs : s.tag_stack with
  | nil => rw [hs] at h; simp at h
  | cons top rest =>
    rw [hs] at h
    simp only [andThen_eq_ok, Outcome.ok.injEq] at h
    obtain ⟨s1, h1, rfl⟩ := h
    refine ⟨top, ?_⟩
    rw [puts_tag_stack, tagout_tag_stack _ _ _ _ h1, spaces_eq]
    simp

/-- No entry of the tag stack contains a space. -/
theorem call_keeps_stack_free_of_spaces (c : Call) (s s' : dfxml_writer)
    (h : c.run s = .ok s') (inv : ∀ t ∈ s.tag_stack, ' ' ∉ t) :
    ∀ t ∈ s'.tag_stack, ' ' ∉ t := by
  cases c with
  | push tag attr =>
    simp only [Call.run, push_eq] at h
    split at h
    · simp at h
    · rename_i hsp
      simp only [Outcome.ok.injEq] at h
      subst h
      intro t ht
      simp only [with_tags_tag_stack, with_stack_tag_stack, List.mem_cons] at ht
      rcases ht with rfl | ht
      · exact hsp
      · exact inv t ht
  | pop =>
    obtain ⟨top, ht⟩ := pop_ok_stack s s' h
    intro t hmem
    exact inv t (by rw [ht]; exact List.mem_cons_of_mem _ hmem)
  | set_oneline v =>
    simp only [Call.run, Outcome.ok.injEq] at h
    subst h
    rw [set_oneline_tag_stack]; exact inv
  | xmlout tag value attr e =>
    rw [xmlout_tag_stack _ _ _ _ _ _ h]; exact inv
  | xmlprintf tag attr f =>
    rw [xmlprintf_tag_stack _ _ _ _ _ h]; exact inv
  | comment c =>
    simp only [Call.run, Outcome.ok.injEq] at h
    subst h
    rw [comment_tag_stack]; exact inv
  | add_timestamp name t1 now =>
    rw [add_timestamp_tag_stack _ _ _ _ _ h]; exact inv

theorem run_calls_keeps_stack_free_of_spaces (cs : List Call) (s s' : dfxml_writer)
    (h : run_calls s cs = .ok s') (inv : ∀ t ∈ s.tag_stack, ' ' ∉ t) :
    ∀ t ∈ s'.tag_stack, ' ' ∉ t := by
  induction cs generalizing s with
  | nil =>
    simp only [run_calls, Outcome.ok.injEq] at h
    subst h; exact inv
  | cons c cs ih =>
    simp only [run_calls, andThen_eq_ok] at h
    obtain ⟨s1, h1, h2⟩ := h
    exact ih s1 h2 (call_keeps_stack_free_of_spaces c s s1 h1 inv)

theorem fresh_tag_stack (s : dfxml_writer) (h : Fresh s) : s.tag_stack = [] := by
  rcases h with ⟨now0, now1, rfl⟩ | ⟨name, makeDTD, now0, now1, h⟩
  · simp [new_stdout]
  · simp only [new_file, Bool.not_true, Bool.false_eq_true, if_false, Outcome.ok.injEq] at h
    subst h
    simp

theorem reachable_stack_free_of_spaces (s : dfxml_writer) (h : Reachable s) :
    ∀ t ∈ s.tag_stack, ' ' ∉ t := by
  obtain ⟨s0, cs, hf, hr⟩ := h
  refine run_calls_keeps_stack_free_of_spaces cs s0 s hr ?_
  rw [fresh_tag_stack s0 hf]
  simp

/-- Claim C8, counterexample: in the reachable state after `push("a")`, with `oneline`
off, `push("a b")` stops with the configuration error, and at that moment the
output is the output before the call followed by two spaces of indentation. -/
theorem push_space_writes_indentation :
    (push (push (new_stdout ⟨0, 0⟩ ⟨0, 0⟩) ['a'] []).state ['a', ' ', 'b'] []).failed = true ∧
    output (push (push (new_stdout ⟨0, 0⟩ ⟨0, 0⟩) ['a'] []).state ['a', ' ', 'b'] []).state
      = output (push (new_stdout ⟨0, 0⟩ ⟨0, 0⟩) ['a'] []).state ++ [' ', ' '] ∧
    output (push (push (new_stdout ⟨0, 0⟩ ⟨0, 0⟩) ['a'] []).state ['a', ' ', 'b'] []).state
      ≠ output (push (new_stdout ⟨0, 0⟩ ⟨0, 0⟩) ['a'] []).state := by
  decide

/-- Claim C8, amended: for every document state and every name containing a space,
`push(name)` stops with the configuration error, and at that moment the output
is the output before the call followed by the indentation of that call only
(two spaces per open element when `oneline` is off, nothing when it is on or
no element is open): no byte of the tag has been written, and the registry is
as before. -/
theorem push_space_fails (s : dfxml_writer) (name attr : Str) (h : ' ' ∈ name) :
    ∃ s', push s name attr = .fatal .tag_contains_space s' ∧
      output s' = output s ++ indentation s ∧ s'.tags = s.tags := by
  refine ⟨_, by rw [push_eq, if_pos h], ?_, ?_⟩
  · simp
  · simp

/-- Instance of the amended C8: `push("a b")` in a fresh document. -/
theorem push_space_fails_witness :
    ∃ s', push (new_stdout ⟨0, 0⟩ ⟨0, 0⟩) ['a', ' ', 'b'] [] = .fatal .tag_contains_space s' ∧
      output s' = output (new_stdout ⟨0, 0⟩ ⟨0, 0⟩) ++ indentation (new_stdout ⟨0, 0⟩ ⟨0, 0⟩) ∧
      s'.tags = (new_stdout ⟨0, 0⟩ ⟨0, 0⟩).tags :=
  push_space_fails (new_stdout ⟨0, 0⟩ ⟨0, 0⟩) ['a', ' ', 'b'] [] (by decide)

/-- Claim C9: in every state the writer can reach, `pop()` stops the process exactly
when the tag stack is empty (by the failed assertion); when the stack is not
empty, `pop()` succeeds, removes the top entry and leaves the entries below as
they were, and appends the indentation, the tag `</` top `>` and `\n`. -/
theorem pop_fails_iff_empty (s : dfxml_writer) (hs : Reachable s) :
    ((pop s).failed = true ↔ s.tag_stack = []) ∧
    (s.tag_stack = [] → pop s = .fatal .assertion s) ∧
    (∀ top rest, s.tag_stack = top :: rest →
      ∃ s', pop s = .ok s' ∧ s'.tag_stack = rest ∧
        output s' = output s
          ++ (if s.oneline then [] else List.replicate (2 * rest.length) ' ')
          ++ (['<', '/'] ++ top ++ ['>']) ++ ['\n']) := by
  have inv := reachable_stack_free_of_spaces s hs
  have hempty : s.tag_stack = [] → pop s = .fatal .assertion s := by
    intro h
    unfold pop
    rw [h]
  have hcons : ∀ top rest, s.tag_stack = top :: rest →
      ∃ s', pop s = .ok s' ∧ s'.tag_stack = rest ∧
        output s' = output s
          ++ (if s.oneline then [] else List.replicate (2 * rest.length) ' ')
          ++ (['<', '/'] ++ top ++ ['>']) ++ ['\n'] := by
    intro top rest h
    have hsp : ' ' ∉ top := inv top (by rw [h]; exact List.mem_cons_self _ _)
    refine ⟨_, pop_eq s top rest h hsp, ?_, ?_⟩
    · simp
    · simp
  refine ⟨?_, hempty, hcons⟩
  constructor
  · intro hf
    cases hst : s.tag_stack with
    | nil => rfl
    | cons top rest =>
      obtain ⟨s', h1, -⟩ := hcons top rest hst
      rw [h1] at hf
      simp [Outcome.failed] at hf
  · intro h
    rw [hempty h]
    rfl

/-- Instance of C9 at the state reached by `push("a")` on a fresh document. -/
theorem pop_fails_iff_empty_witness :
    Reachable (push (new_stdout ⟨0, 0⟩ ⟨0, 0⟩) ['a'] []).state ∧
    ((pop (push (new_stdout ⟨0, 0⟩ ⟨0, 0⟩) ['a'] []).state).failed = true ↔
      (push (new_stdout ⟨0, 0⟩ ⟨0, 0⟩) ['a'] []).state.tag_stack = []) :=
  have h : Reachable (push (new_stdout ⟨0, 0⟩ ⟨0, 0⟩) ['a'] []).state :=
    ⟨new_stdout ⟨0, 0⟩ ⟨0, 0⟩, [Call.push ['a'] []], Or.inl ⟨⟨0, 0⟩, ⟨0, 0⟩, rfl⟩, by decide⟩
  ⟨h, (pop_fails_iff_empty _ h).1⟩

/-! ## Nesting -/

/-- A properly nested sequence stays properly nested when a properly nested
sequence is inserted anywhere in it. -/
theorem Balanced.insert (x : List Tag) (hx : Balanced x) :
    ∀ (u v w : List Tag), x = u ++ v → Balanced w → Balanced (u ++ w ++ v) := by
  induction hx with
  | nil =>
    intro u v w h hw
    have hu : u = [] := (List.append_eq_nil.mp h.symm).1
    have hv : v = [] := (List.append_eq_nil.mp h.symm).2
    subst hu hv
    simpa using hw
  | wrap name attr inner hin ih =>
    intro u v w h hw
    cases u with
    | nil =>
      simp only [List.nil_append] at h ⊢
      subst h
      exact Balanced.append _ _ hw (Balanced.wrap name attr inner hin)
    | cons e u =>
      simp only [List.cons_append, List.cons.injEq] at h
      obtain ⟨rfl, h⟩ := h
      rcases List.eq_nil_or_concat v with rfl | ⟨v', last, rfl⟩
      · simp only [List.append_nil] at h ⊢
        have : Balanced ((Tag.opening name attr :: u) ++ w) := by
          rw [← h]
          exact Balanced.append _ _ (Balanced.wrap name attr inner hin) hw
        simpa using this
      · rw [List.concat_eq_append, ← List.append_assoc] at h
        have h1 := List.append_inj_left' h rfl
        have h2 := List.append_inj_right' h rfl
        simp only [List.cons.injEq, and_true] at h2
        subst h2
        have := Balanced.wrap name attr _ (ih u v' w h1 hw)
        simpa [List.append_assoc] using this
  | append x1 x2 h1 h2 ih1 ih2 =>
    intro u v w h hw
    rcases List.append_eq_append_iff.mp h with ⟨a', hu, hx2⟩ | ⟨c', hx1, hv⟩
    · have := Balanced.append _ _ h1 (ih2 a' v w hx2 hw)
      rw [hu]
      simpa [List.append_assoc] using this
    · have := Balanced.append _ _ (ih1 u c' w hx1 hw) h2
      rw [hv]
      simpa [List.append_assoc] using this

theorem nesting_run (ops : List Nesting) :
    ∀ s : dfxml_writer, s.oneline = false → (∀ t ∈ s.tag_stack, ' ' ∉ t) →
      (∀ name attr, Nesting.push name attr ∈ ops → ' ' ∉ name) →
      no_underflow s.tag_stack.length ops = true →
      ∃ s' tags, run_calls s (ops.map Nesting.call) = .ok s' ∧
        List.Forall₂ Emits ops tags ∧
        output s' = output s ++ render s.tag_stack.length tags ∧
        s'.oneline = false ∧
        (∀ front, Balanced (front ++ s.tag_stack.map Tag.closing) →
          Balanced (front ++ tags ++ s'.tag_stack.map Tag.closing)) ∧
        s'.tag_stack.length + count_pop ops = s.tag_stack.length + count_push ops := by
  induction ops with
  | nil =>
    intro s ho _ _ _
    exact ⟨s, [], rfl, List.Forall₂.nil, by simp [render], ho, fun front h => by simpa using h,
      rfl⟩
  | cons op rest ih =>
    intro s ho inv hnames hdepth
    have hrest : ∀ name attr, Nesting.push name attr ∈ rest → ' ' ∉ name :=
      fun name attr h => hnames name attr (List.mem_cons_of_mem _ h)
    cases op with
    | push name attr =>
      have hsp : ' ' ∉ name := hnames name attr (List.mem_cons_self _ _)
      have hpush := push_eq s name attr
      rw [if_neg hsp] at hpush
      generalize hs1 : with_tags (with_stack
        (puts s (indentation s ++ tag_text name attr ++ (if s.oneline then [] else ['\n'])))
        (name :: s.tag_stack)) (set_insert (strip_slash name) s.tags) = s1 at hpush
      have e_stack : s1.tag_stack = name :: s.tag_stack := by rw [← hs1]; simp
      have e_one : s1.oneline = false := by rw [← hs1]; simpa using ho
      have e_out : output s1 = output s ++
          (List.replicate (2 * s.tag_stack.length) ' ' ++ tag_text name attr ++ ['\n']) := by
        rw [← hs1]; simp [indentation, ho]
      have inv1 : ∀ t ∈ s1.tag_stack, ' ' ∉ t := by
        intro t ht
        rw [e_stack, List.mem_cons] at ht
        rcases ht with rfl | ht
        · exact hsp
        · exact inv t ht
      have hd1 : no_underflow s1.tag_stack.length rest = true := by
        rw [e_stack]; simpa [no_underflow] using hdepth
      obtain ⟨s', tags, hrun, hem, hout, hone, hbal, hcount⟩ := ih s1 e_one inv1 hrest hd1
      refine ⟨s', Tag.opening name attr :: tags, ?_, ?_, ?_, hone, ?_, ?_⟩
      · simp only [List.map_cons, run_calls, Nesting.call, Call.run, hpush, Outcome.andThen]
        exact hrun
      · exact List.Forall₂.cons ⟨rfl, rfl⟩ hem
      · rw [hout, e_out, e_stack]
        simp [render, List.append_assoc]
      · intro front hfront
        have h1 : Balanced (front ++ [Tag.opening name attr, Tag.closing name]
            ++ s.tag_stack.map Tag.closing) :=
          Balanced.insert _ hfront front _ _ rfl
            (by simpa using Balanced.wrap name attr [] Balanced.nil)
        have h2 := hbal (front ++ [Tag.opening name attr])
          (by rw [e_stack]; simpa [List.append_assoc] using h1)
        simpa [List.append_assoc] using h2
      · rw [e_stack] at hcount
        simp only [count_pop, count_push, List.length_cons] at hcount ⊢
        omega
    | pop =>
      cases hst : s.tag_stack with
      | nil => rw [hst] at hdepth; simp [no_underflow] at hdepth
      | cons top below =>
        have hsp : ' ' ∉ top := inv top (by rw [hst]; exact List.mem_cons_self _ _)
        have hpop := pop_eq s top below hst hsp
        generalize hs1 : with_tags (with_stack
          (puts s ((if s.oneline then [] else List.replicate (2 * below.length) ' ')
            ++ (['<', '/'] ++ top ++ ['>']) ++ ['\n'])) below) (set_insert top s.tags) = s1
          at hpop
        have e_stack : s1.tag_stack = below := by rw [← hs1]; simp
        have e_one : s1.oneline = false := by rw [← hs1]; simpa using ho
        have e_out : output s1 = output s ++
            (List.replicate (2 * below.length) ' ' ++ (['<', '/'] ++ top ++ ['>'])
              ++ ['\n']) := by
          rw [← hs1]; simp [ho]
        have inv1 : ∀ t ∈ s1.tag_stack, ' ' ∉ t := by
          intro t ht
          rw [e_stack] at ht
          exact inv t (by rw [hst]; exact List.mem_cons_of_mem _ ht)
        have hd1 : no_underflow s1.tag_stack.length rest = true := by
          rw [e_stack]; rw [hst] at hdepth; simpa [no_underflow] using hdepth
        obtain ⟨s', tags, hrun, hem, hout, hone, hbal, hcount⟩ := ih s1 e_one inv1 hrest hd1
        refine ⟨s', Tag.closing top :: tags, ?_, ?_, ?_, hone, ?_, ?_⟩
        · simp only [List.map_cons, run_calls, Nesting.call, Call.run, hpop, Outcome.andThen]
          exact hrun
        · exact List.Forall₂.cons trivial hem
        · rw [hout, e_out, e_stack]
          simp [render, List.append_assoc]
        · intro front hfront
          have h2 := hbal (front ++ [Tag.closing top])
            (by rw [e_stack]; simpa [List.append_assoc] using hfront)
          simpa [List.append_assoc] using h2
        · rw [e_stack] at hcount
          simp only [count_pop, count_push, List.length_cons] at hcount ⊢
          omega

theorem fresh_oneline (s : dfxml_writer) (h : Fresh s) : s.oneline = false := by
  rcases h with ⟨now0, now1, rfl⟩ | ⟨name, makeDTD, now0, now1, h⟩
  · simp [new_stdout]
  · simp only [new_file, Bool.not_true, Bool.false_eq_true, if_false, Outcome.ok.injEq] at h
    subst h
    simp

theorem fresh_output (s : dfxml_writer) (h : Fresh s) : output s = xml_header := by
  rcases h with ⟨now0, now1, rfl⟩ | ⟨name, makeDTD, now0, now1, h⟩
  · simp only [new_stdout, output_puts]
    rfl
  · simp only [new_file, Bool.not_true, Bool.false_eq_true, if_false, Outcome.ok.injEq] at h
    subst h
    simp only [output_puts]
    rfl

/-- Claim C6: for every sequence of `push(name)`/`pop()` calls on a fresh document in
which no name contains a space or begins with `/` and no `pop` is issued on an
empty stack, every call succeeds and the output is the header followed by one
line per call, an opening tag for each `push` and a closing tag for each `pop`;
this sequence of tags, continued by the closing tags of the elements still on
the stack (top first), is properly nested, so each `pop` wrote the closing tag
of the most recently pushed name not yet closed; and the tag stack is empty at
the end exactly when there were as many pushes as pops. -/
theorem push_pop_properly_nested (s0 : dfxml_writer) (ops : List Nesting)
    (hfresh : Fresh s0)
    (hnames : ∀ name attr, Nesting.push name attr ∈ ops →
      ' ' ∉ name ∧ name.head? ≠ some '/')
    (hpop : no_underflow 0 ops = true) :
    ∃ s tags, run_calls s0 (ops.map Nesting.call) = .ok s ∧
      List.Forall₂ Emits ops tags ∧
      output s = xml_header ++ render 0 tags ∧
      Balanced (tags ++ s.tag_stack.map Tag.closing) ∧
      (s.tag_stack = [] ↔ count_push ops = count_pop ops) := by
  have hstack := fresh_tag_stack s0 hfresh
  obtain ⟨s, tags, hrun, hem, hout, -, hbal, hcount⟩ :=
    nesting_run ops s0 (fresh_oneline s0 hfresh) (by rw [hstack]; simp)
      (fun name attr h => (hnames name attr h).1) (by rw [hstack]; exact hpop)
  refine ⟨s, tags, hrun, hem, ?_, ?_, ?_⟩
  · rw [hout, hstack, fresh_output s0 hfresh]; rfl
  · have := hbal [] (by rw [hstack]; exact Balanced.nil)
    simpa using this
  · rw [hstack] at hcount
    simp only [List.length_nil, Nat.zero_add] at hcount
    rw [← List.length_eq_zero]
    omega

/-- Instance of C6: `push("a")`, `push("b")`, `pop()`, `pop()` on a fresh document. -/
theorem push_pop_properly_nested_witness :
    ∃ s tags, run_calls (new_stdout ⟨0, 0⟩ ⟨0, 0⟩)
        ([Nesting.push ['a'] [], Nesting.push ['b'] [], Nesting.pop, Nesting.pop].map
          Nesting.call) = .ok s ∧
      List.Forall₂ Emits [Nesting.push ['a'] [], Nesting.push ['b'] [], Nesting.pop,
        Nesting.pop] tags ∧
      output s = xml_header ++ render 0 tags ∧
      Balanced (tags ++ s.tag_stack.map Tag.closing) ∧
      (s.tag_stack = [] ↔
        count_push [Nesting.push ['a'] [], Nesting.push ['b'] [], Nesting.pop, Nesting.pop]
          = count_pop [Nesting.push ['a'] [], Nesting.push ['b'] [], Nesting.pop,
            Nesting.pop]) :=
  push_pop_properly_nested (new_stdout ⟨0, 0⟩ ⟨0, 0⟩)
    [Nesting.push ['a'] [], Nesting.push ['b'] [], Nesting.pop, Nesting.pop]
    (Or.inl ⟨⟨0, 0⟩, ⟨0, 0⟩, rfl⟩)
    (by
      intro name attr h
      simp only [List.mem_cons, Nesting.push.injEq, List.mem_singleton, reduceCtorEq,
        or_false, List.mem_nil_iff] at h
      rcases h with ⟨rfl, rfl⟩ | ⟨rfl, rfl⟩ <;> decide)
    (by decide)

/-! ## Schema generation -/

/-- Claim C10, the code at the failing input: the constructor
`dfxml_writer(outfilename_, makeDTD)` called with `makeDTD = true` on a file that opens
leaves `make_dtd` false, and `close()` then returns with the state, hence the
output, as it was: no schema block is written, whatever the temporary file
holds. -/
theorem new_file_ignores_makeDTD (outfilename_ : Str) (now0 now1 : timeval) :
    ∃ s, new_file outfilename_ true true now0 now1 = .ok s ∧ s.make_dtd = false ∧
      output s = xml_header ∧
      ∀ (tempfile : Option Str) (reopened : Bool), close s tempfile reopened = .ok s := by
  refine ⟨_, rfl, ?_, ?_, ?_⟩
  · simp
  · simp only [output_puts]
    rfl
  · intro tempfile reopened
    unfold close
    simp

/-! ## Timestamps -/

/-- Claim C15, the code at the failing input: when the microsecond fields of the
current time and of the reference are equal, the test `t1.tv_usec > ref.tv_usec`
fails and the code borrows a second: the delta is `(s1 - s0 - 1, 1000000)`.
One second apart, `(10, 500000)` to `(11, 500000)`, gives the text `0.1000000`
and not `1.000000`; the same instant gives `-1.1000000`; the times 1.5 s
apart `(10, 100000)` and `(11, 600000)` give `1.500000`. -/
theorem timeval_delta_equal_usec :
    (∀ s1 s0 u : Int, timeval_delta ⟨s1, u⟩ ⟨s0, u⟩ = ⟨s1 - s0 - 1, 1000000⟩) ∧
    fmt_timeval (timeval_delta ⟨11, 500000⟩ ⟨10, 500000⟩) = "0.1000000".toList ∧
    fmt_timeval (timeval_delta ⟨10, 500000⟩ ⟨10, 500000⟩) = "-1.1000000".toList ∧
    fmt_timeval (timeval_delta ⟨11, 600000⟩ ⟨10, 100000⟩) = "1.500000".toList ∧
    output (add_timestamp (new_stdout ⟨10, 500000⟩ ⟨10, 500000⟩) ['t'] ⟨11, 500000⟩
        ⟨11, 500001⟩).state
      = xml_header ++ "<timestamp name='t' delta='0.1000000' total='0.1000000'/>\n".toList := by
  refine ⟨fun s1 s0 u => by simp [timeval_delta], by decide, by decide, by decide, by decide⟩

/-- Claim C16: for every current time `(s1, u1)` and reference `(s0, u0)` with
microsecond fields in [0, 999999] and `u1 < u0`, the delta computed by
`add_timestamp` has seconds `s1 - s0 - 1` and microseconds `u1 + 1000000 - u0`;
the microseconds lie in [1, 999999] and
`seconds * 1000000 + microseconds = (s1 * 1000000 + u1) - (s0 * 1000000 + u0)`;
this delta is the one `add_timestamp` formats into the `delta` attribute; the
reference `(10, 900000)` and the current time `(12, 100000)` yield `1.200000`. -/
theorem timeval_delta_borrow (s1 u1 s0 u0 : Int)
    (h1 : 0 ≤ u1 ∧ u1 ≤ 999999) (h0 : 0 ≤ u0 ∧ u0 ≤ 999999) (hlt : u1 < u0) :
    timeval_delta ⟨s1, u1⟩ ⟨s0, u0⟩ = ⟨s1 - s0 - 1, u1 + 1000000 - u0⟩ ∧
    1 ≤ u1 + 1000000 - u0 ∧ u1 + 1000000 - u0 ≤ 999999 ∧
    (s1 - s0 - 1) * 1000000 + (u1 + 1000000 - u0)
      = (s1 * 1000000 + u1) - (s0 * 1000000 + u0) ∧
    (∀ (s : dfxml_writer) (name : Str) (now : timeval), s.t_last_timestamp = ⟨s0, u0⟩ →
      add_timestamp s name ⟨s1, u1⟩ now =
        xmlout { s with t_last_timestamp := now } "timestamp".toList []
          ("name='".toList ++ name ++ "' delta='".toList
            ++ fmt_timeval ⟨s1 - s0 - 1, u1 + 1000000 - u0⟩
            ++ "' total='".toList ++ fmt_timeval (timeval_delta ⟨s1, u1⟩ s.t0) ++ "'".toList)
          true) ∧
    fmt_timeval (timeval_delta ⟨12, 100000⟩ ⟨10, 900000⟩) = "1.200000".toList ∧
    output (add_timestamp (new_stdout ⟨10, 900000⟩ ⟨10, 900000⟩) ['t'] ⟨12, 100000⟩
        ⟨12, 100001⟩).state
      = xml_header ++ "<timestamp name='t' delta='1.200000' total='1.200000'/>\n".toList := by
  have hd : timeval_delta ⟨s1, u1⟩ ⟨s0, u0⟩ = ⟨s1 - s0 - 1, u1 + 1000000 - u0⟩ := by
    simp [timeval_delta, not_lt.mpr (le_of_lt hlt)]
  refine ⟨hd, by omega, by omega, by ring, ?_, by decide, by decide⟩
  intro s name now hs
  simp only [add_timestamp, hs, hd]

/-- Instance of C16 at the reference `(10, 900000)` and the current time `(12, 100000)`. -/
theorem timeval_delta_borrow_witness :
    timeval_delta ⟨12, 100000⟩ ⟨10, 900000⟩ = ⟨12 - 10 - 1, 100000 + 1000000 - 900000⟩ ∧
    (12 - 10 - 1 : Int) * 1000000 + (100000 + 1000000 - 900000)
      = (12 * 1000000 + 100000) - (10 * 1000000 + 900000) :=
  ⟨(timeval_delta_borrow 12 100000 10 900000 (by decide) (by decide) (by decide)).1,
   (timeval_delta_borrow 12 100000 10 900000 (by decide) (by decide) (by decide)).2.2.2.1⟩

/-! ## The oneline mode and indentation -/

/-- Claim C17, the code at the failing input: in the state reached by `push("a")` and
`set_oneline(true)`, `xmlout("x", "5")` appends `<x>5</x>` and a line break, and
`pop()` appends `</a>` and a line break; `push("b")` appends `<b>` alone. None of
the three writes indentation. -/
theorem oneline_pop_and_xmlout_break_the_line :
    (set_oneline (push (new_stdout ⟨0, 0⟩ ⟨0, 0⟩) ['a'] []).state true).oneline = true ∧
    output (xmlout (set_oneline (push (new_stdout ⟨0, 0⟩ ⟨0, 0⟩) ['a'] []).state true)
        ['x'] ['5'] [] true).state
      = output (set_oneline (push (new_stdout ⟨0, 0⟩ ⟨0, 0⟩) ['a'] []).state true)
        ++ "<x>5</x>\n".toList ∧
    output (pop (set_oneline (push (new_stdout ⟨0, 0⟩ ⟨0, 0⟩) ['a'] []).state true)).state
      = output (set_oneline (push (new_stdout ⟨0, 0⟩ ⟨0, 0⟩) ['a'] []).state true)
        ++ "</a>\n".toList ∧
    output (push (set_oneline (push (new_stdout ⟨0, 0⟩ ⟨0, 0⟩) ['a'] []).state true)
        ['b'] []).state
      = output (set_oneline (push (new_stdout ⟨0, 0⟩ ⟨0, 0⟩) ['a'] []).state true)
        ++ "<b>".toList := by
  decide

/-- Claim C18, counterexample: in the state reached by `push("a")` on a fresh document
(`oneline` off, depth 1) `pop()` appends `</a>` and a line break with no space
in front, not two spaces. -/
theorem pop_indents_by_depth_after_popping :
    (push (new_stdout ⟨0, 0⟩ ⟨0, 0⟩) ['a'] []).state.oneline = false ∧
    (push (new_stdout ⟨0, 0⟩ ⟨0, 0⟩) ['a'] []).state.tag_stack.length = 1 ∧
    output (pop (push (new_stdout ⟨0, 0⟩ ⟨0, 0⟩) ['a'] []).state).state
      = output (push (new_stdout ⟨0, 0⟩ ⟨0, 0⟩) ['a'] []).state ++ "</a>\n".toList ∧
    output (pop (push (new_stdout ⟨0, 0⟩ ⟨0, 0⟩) ['a'] []).state).state
      ≠ output (push (new_stdout ⟨0, 0⟩ ⟨0, 0⟩) ['a'] []).state ++ "  </a>\n".toList := by
  decide

/-- Claim C18, amended: in every state the writer can reach with `oneline` off and a
tag stack of depth `d ≥ 1`, `pop()` writes its closing tag at the depth measured
after popping: it appends `2 * (d - 1)` spaces (two per element that stays
open), then `</top>`, then a line break. -/
theorem pop_text (s : dfxml_writer) (d : Nat) (top : Str) (hs : Reachable s)
    (hone : s.oneline = false) (hd : s.tag_stack.length = d) (hpos : 1 ≤ d)
    (htop : s.tag_stack.head? = some top) :
    ∃ s', pop s = .ok s' ∧
      output s' = output s ++ List.replicate (2 * (d - 1)) ' '
        ++ (['<', '/'] ++ top ++ ['>']) ++ ['\n'] := by
  cases hst : s.tag_stack with
  | nil => rw [hst] at htop; simp at htop
  | cons t rest =>
    rw [hst] at htop hd
    simp only [List.head?_cons, Option.some.injEq] at htop
    subst htop
    have hsp : ' ' ∉ t :=
      reachable_stack_free_of_spaces s hs t (by rw [hst]; exact List.mem_cons_self _ _)
    refine ⟨_, pop_eq s t rest hst hsp, ?_⟩
    have hr : d - 1 = rest.length := by
      simp only [List.length_cons] at hd
      omega
    simp [hone, hr]

/-- Instance of the amended C18 at the state reached by `push("a")`, `push("b")`. -/
theorem pop_text_witness :
    ∃ s', pop (run_calls (new_stdout ⟨0, 0⟩ ⟨0, 0⟩)
        [Call.push ['a'] [], Call.push ['b'] []]).state = .ok s' ∧
      output s' = output (run_calls (new_stdout ⟨0, 0⟩ ⟨0, 0⟩)
          [Call.push ['a'] [], Call.push ['b'] []]).state
        ++ List.replicate (2 * (2 - 1)) ' ' ++ (['<', '/'] ++ ['b'] ++ ['>']) ++ ['\n'] :=
  pop_text _ 2 ['b']
    ⟨new_stdout ⟨0, 0⟩ ⟨0, 0⟩, [Call.push ['a'] [], Call.push ['b'] []],
      Or.inl ⟨⟨0, 0⟩, ⟨0, 0⟩, rfl⟩, by decide⟩
    (by decide) (by decide) (by decide) (by decide)

/-! ## The schema block and the two-pass rewrite

First what `write_dtd` and the copy loop of `close` compute, then the flag
`make_dtd` that guards them in `close`. -/

theorem write_dtd_fold (l : List Str) (s : dfxml_writer) :
    l.foldl (fun s it => puts s ("<!ELEMENT ".toList ++ (it ++ "ANY >\n".toList))) s
      = puts s (l.map element_line).flatten := by
  induction l generalizing s with
  | nil => simp
  | cons it l ih =>
    simp only [List.foldl_cons, List.map_cons, List.flatten_cons]
    rw [ih, puts_puts]
    simp [element_line, List.append_assoc]

theorem write_dtd_eq (s : dfxml_writer) : write_dtd s = puts s (dtd_text s.tags) := by
  unfold write_dtd
  simp only [puts_tags, puts_puts, List.append_assoc]
  rw [write_dtd_fold]
  simp only [puts_puts, dtd_text, dtd_tail, List.append_assoc]

theorem span_line (first rest : Str) (h : '\n' ∉ first) :
    (first ++ '\n' :: rest).span (fun c => c != '\n') = (first, '\n' :: rest) := by
  rw [List.span_eq_take_drop]
  have hp : ∀ a ∈ first, (fun c : Char => c != '\n') a = true := by
    intro a ha
    simp only [bne_iff_ne, ne_eq]
    rintro rfl
    exact h ha
  rw [List.takeWhile_append_of_pos hp, List.dropWhile_append_of_pos hp]
  simp

theorem span_last_line (first : Str) (h : '\n' ∉ first) :
    first.span (fun c => c != '\n') = (first, []) := by
  rw [List.span_eq_take_drop]
  have hp : ∀ a ∈ first, (fun c : Char => c != '\n') a = true := by
    intro a ha
    simp only [bne_iff_ne, ne_eq]
    rintro rfl
    exact h ha
  simp [List.takeWhile_eq_self_iff.mpr hp, List.dropWhile_eq_nil_iff.mpr hp]

theorem getline_line (first rest line : Str) (h : '\n' ∉ first) :
    getline ⟨first ++ '\n' :: rest, false, false⟩ line = (⟨rest, false, false⟩, first) := by
  unfold getline
  simp only [Bool.or_false, Bool.false_eq_true, if_false]
  rw [span_line first rest h]

theorem getline_last_line (first line : Str) (h : '\n' ∉ first) :
    getline ⟨first, false, false⟩ line = (⟨[], true, first.isEmpty⟩, first) := by
  unfold getline
  simp only [Bool.or_false, Bool.false_eq_true, if_false]
  rw [span_last_line first h]

/-- Every text is a first line without `\n`, followed or not by `\n` and the rest. -/
theorem split_first_line (r : Str) :
    (∃ first rest, '\n' ∉ first ∧ r = first ++ '\n' :: rest) ∨ '\n' ∉ r := by
  induction r with
  | nil => exact Or.inr (by simp)
  | cons c r ih =>
    by_cases hc : c = '\n'
    · subst hc
      exact Or.inl ⟨[], r, by simp, rfl⟩
    · rcases ih with ⟨first, rest, hf, rfl⟩ | hno
      · refine Or.inl ⟨c :: first, rest, ?_, rfl⟩
        simp only [List.mem_cons, not_or]
        exact ⟨fun h => hc h.symm, hf⟩
      · refine Or.inr ?_
        simp only [List.mem_cons, not_or]
        exact ⟨fun h => hc h.symm, hno⟩

/-- The copy loop, given enough fuel, appends the unread bytes and one `\n`. -/
theorem copy_lines_eq (fuel : Nat) : ∀ (r line : Str) (s : dfxml_writer),
    r.length + 1 ≤ fuel →
    copy_lines fuel ⟨r, false, false⟩ line s = { s with outf := s.outf ++ r ++ ['\n'] } := by
  induction fuel with
  | zero => intro r line s h; omega
  | succ fuel ih =>
    intro r line s h
    rcases split_first_line r with ⟨first, rest, hf, rfl⟩ | hno
    · unfold copy_lines
      simp only [Bool.false_eq_true, if_false, getline_line first rest line hf]
      rw [ih rest first _ (by simp only [List.length_append, List.length_cons] at h; omega)]
      simp [List.append_assoc]
    · unfold copy_lines
      simp only [Bool.false_eq_true, if_false, getline_last_line r line hno]
      cases fuel with
      | zero => simp [copy_lines]
      | succ k => simp [copy_lines]

/-! ### The flag `make_dtd` is never set -/

theorem andThen_make_dtd (o : Outcome) (f : dfxml_writer → Outcome) (b : Bool)
    (h1 : o.state.make_dtd = b) (h2 : ∀ s1, s1.make_dtd = b → (f s1).state.make_dtd = b) :
    (o.andThen f).state.make_dtd = b := by
  cases o with
  | ok s1 => exact h2 s1 h1
  | fatal e s1 => exact h1

theorem spaces_make_dtd (s : dfxml_writer) : (spaces s).make_dtd = s.make_dtd := by
  rw [spaces_eq]; simp

theorem tagout_make_dtd (s : dfxml_writer) (tag attr : Str) :
    (tagout s tag attr).state.make_dtd = s.make_dtd := by
  rw [tagout_eq]
  split <;> simp [Outcome.state]

theorem xmlout_make_dtd (s : dfxml_writer) (tag value attr : Str) (e : Bool) :
    (xmlout s tag value attr e).state.make_dtd = s.make_dtd := by
  unfold xmlout
  refine andThen_make_dtd _ _ _ ?_ (fun s2 h2 => by simpa [Outcome.state] using h2)
  split
  · split
    · rw [tagout_make_dtd, spaces_make_dtd]
    · exact spaces_make_dtd s
  · refine andThen_make_dtd _ _ _ ?_ (fun s2 h2 => ?_)
    · split
      · rw [tagout_make_dtd, spaces_make_dtd]
      · exact spaces_make_dtd s
    · show (if tag.length > 0 then
          tagout (puts s2 (if e then xmlescape value else value)) ('/' :: tag) []
        else .ok (puts s2 (if e then xmlescape value else value))).state.make_dtd = _
      by_cases ht : tag.length > 0
      · rw [if_pos ht, tagout_make_dtd, puts_make_dtd, h2]
      · rw [if_neg ht]
        simpa [Outcome.state] using h2

theorem xmlprintf_make_dtd (s : dfxml_writer) (tag attr : Str) (f : Option Str) :
    (xmlprintf s tag attr f).state.make_dtd = s.make_dtd := by
  unfold xmlprintf
  refine andThen_make_dtd _ _ _ (by rw [tagout_make_dtd, spaces_make_dtd]) (fun s2 h2 => ?_)
  cases f with
  | none => exact h2
  | some ret =>
    refine andThen_make_dtd _ _ _ (by rw [tagout_make_dtd, puts_make_dtd, h2])
      (fun s3 h3 => by simpa [Outcome.state] using h3)

theorem pop_make_dtd (s : dfxml_writer) : (pop s).state.make_dtd = s.make_dtd := by
  have h0 : pop s =
      match s.tag_stack with
      | [] => .fatal .assertion s
      | tag :: rest =>
        (tagout (spaces (with_stack s rest)) ('/' :: tag) []).andThen fun s =>
          .ok (puts s ['\n']) := rfl
  rw [h0]
  split
  · rfl
  · refine andThen_make_dtd _ _ _ ?_ (fun s3 h3 => by simpa [Outcome.state] using h3)
    rw [tagout_make_dtd, spaces_make_dtd]
    rfl

theorem push_make_dtd (s : dfxml_writer) (tag attr : Str) :
    (push s tag attr).state.make_dtd = s.make_dtd := by
  rw [push_eq]
  split <;> simp [Outcome.state]

theorem call_make_dtd (c : Call) (s : dfxml_writer) :
    (c.run s).state.make_dtd = s.make_dtd := by
  cases c with
  | push tag attr => exact push_make_dtd s tag attr
  | pop => exact pop_make_dtd s
  | set_oneline v => cases v <;> simp [Call.run, Outcome.state, set_oneline, spaces_eq]
  | xmlout tag value attr e => exact xmlout_make_dtd s tag value attr e
  | xmlprintf tag attr f => exact xmlprintf_make_dtd s tag attr f
  | comment c => simp [Call.run, Outcome.state, comment]
  | add_timestamp name t1 now =>
    simp only [Call.run, add_timestamp]
    rw [xmlout_make_dtd]

theorem run_calls_make_dtd (cs : List Call) :
    ∀ s : dfxml_writer, (run_calls s cs).state.make_dtd = s.make_dtd := by
  induction cs with
  | nil => intro s; rfl
  | cons c cs ih =>
    intro s
    simp only [run_calls]
    exact andThen_make_dtd _ _ _ (call_make_dtd c s) (fun s1 h1 => by rw [ih s1, h1])

theorem new_file_make_dtd (outfilename_ : Str) (makeDTD is_open : Bool) (now0 now1 : timeval) :
    (new_file outfilename_ makeDTD is_open now0 now1).state.make_dtd = false := by
  cases is_open <;> simp [new_file, Outcome.state]

theorem close_of_make_dtd_false (s : dfxml_writer) (h : s.make_dtd = false)
    (tempfile : Option Str) (reopened : Bool) : close s tempfile reopened = .ok s := by
  unfold close
  simp [h]

/-- After any calls on a document opened on a file, with or without a request for
schema generation, `close()` returns with the state as it was. -/
theorem close_after_calls (outfilename_ : Str) (makeDTD : Bool) (now0 now1 : timeval)
    (cs : List Call) (tempfile : Option Str) (reopened : Bool) :
    close (run_calls (new_file outfilename_ makeDTD true now0 now1).state cs).state
        tempfile reopened
      = .ok (run_calls (new_file outfilename_ makeDTD true now0 now1).state cs).state :=
  close_of_make_dtd_false _
    (by rw [run_calls_make_dtd, new_file_make_dtd]) tempfile reopened

theorem foldl_keep_write (keep : Char → Bool) (write : Char → Char) (s acc : Str) :
    s.foldl (fun ret ch => if keep ch then ret ++ [write ch] else ret) acc
      = acc ++ (s.filter keep).map write := by
  induction s generalizing acc with
  | nil => simp
  | cons c s ih =>
    simp only [List.foldl_cons]
    rw [ih]
    by_cases hk : keep c = true
    · simp [hk, List.filter_cons]
    · simp [hk, List.filter_cons]

theorem strip_keeps_eq (c : Char) :
    (isprint c && !strchr ['<', '>', '\r', '\n', '&', apostrophe, dquote] c) = strip_keeps c := by
  unfold isprint strchr strip_keeps
  by_cases h0 : c = '\x00'
  · subst h0; decide
  · have hb : (c == '\x00') = false := by simp [h0]
    simp [hb, Bool.decide_and]

theorem strip_writes_eq (c : Char) (h : strip_keeps c = true) :
    (if isspace c then '_' else tolower c) = strip_writes c := by
  unfold strip_keeps at h
  simp only [Bool.and_eq_true, decide_eq_true_eq] at h
  obtain ⟨⟨hlo, hhi⟩, -⟩ := h
  unfold isspace tolower strip_writes
  by_cases hsp : c = ' '
  · simp [hsp]
  · have h13 : ¬ (c.toNat ≤ 0x0D) := by omega
    simp [hsp, h13]

/-- Claim C19: for every input `s`, `xmlstrip s` is the in-order sequence of the bytes of
`s` that are printable (0x20 to 0x7E) and none of `<`, `>`, CR, LF, `&`,
apostrophe, double quote, with each kept space replaced by `_` and each kept
upper-case letter by its lower-case form; every other byte is dropped, among
them TAB, the bytes from 0x80 on and the reserved characters. -/
theorem xmlstrip_keeps_and_rewrites (s : Str) :
    xmlstrip s = (s.filter strip_keeps).map strip_writes ∧
    strip_keeps '\t' = false ∧ strip_keeps '\x00' = false ∧
    (∀ c : Char, 0x80 ≤ c.toNat → strip_keeps c = false) ∧
    (∀ c ∈ ['<', '>', '\r', '\n', '&', apostrophe, dquote], strip_keeps c = false) ∧
    xmlstrip ['A', 'b', ' ', 'C', '<', '\t', Char.ofNat 233, '1'] = ['a', 'b', '_', 'c', '1'] := by
  refine ⟨?_, by decide, by decide, ?_, by decide, by decide⟩
  · unfold xmlstrip
    rw [foldl_keep_write, List.nil_append]
    have hk : (fun ch => isprint ch && !strchr ['<', '>', '\r', '\n', '&', apostrophe, dquote] ch)
        = strip_keeps := funext strip_keeps_eq
    rw [hk]
    apply List.map_congr_left
    intro c hc
    exact strip_writes_eq c (List.mem_filter.mp hc).2
  · intro c hc
    unfold strip_keeps
    have : ¬ (c.toNat ≤ 0x7E) := by omega
    simp [this]

/-- Instance of C19 at the byte 0xE9 and at the reserved character `&`. -/
theorem xmlstrip_keeps_and_rewrites_witness :
    strip_keeps (Char.ofNat 233) = false ∧ strip_keeps '&' = false :=
  ⟨(xmlstrip_keeps_and_rewrites []).2.2.2.1 (Char.ofNat 233) (by decide),
   (xmlstrip_keeps_and_rewrites []).2.2.2.2.1 '&' (by decide)⟩

/-! ## The registry -/

theorem tags_kept_ok (s s1 : dfxml_writer) (h : ∀ x ∈ s.tags, x ∈ s1.tags) :
    tags_kept s (.ok s1) := h

theorem tags_kept_fatal (s s1 : dfxml_writer) (e : Fatal) (h : ∀ x ∈ s.tags, x ∈ s1.tags) :
    tags_kept s (.fatal e s1) := h

theorem tags_kept_andThen (s : dfxml_writer) (o : Outcome) (f : dfxml_writer → Outcome)
    (h1 : tags_kept s o) (h2 : ∀ s1, (∀ x ∈ s.tags, x ∈ s1.tags) → tags_kept s (f s1)) :
    tags_kept s (o.andThen f) := by
  cases o with
  | ok s1 => exact h2 s1 h1
  | fatal e s1 => exact h1

theorem tags_kept_tagout (s s1 : dfxml_writer) (tag attr : Str)
    (h : ∀ x ∈ s.tags, x ∈ s1.tags) : tags_kept s (tagout s1 tag attr) := by
  rw [tagout_eq]
  split
  · exact h
  · intro x hx
    simp only [Outcome.state, with_tags_tags, mem_set_insert]
    exact Or.inr (h x hx)

theorem tags_kept_xmlout (s s1 : dfxml_writer) (tag value attr : Str) (e : Bool)
    (h : ∀ x ∈ s.tags, x ∈ s1.tags) : tags_kept s (xmlout s1 tag value attr e) := by
  have hsp : ∀ x ∈ s.tags, x ∈ (spaces s1).tags := by
    rw [spaces_eq]; simpa using h
  unfold xmlout
  refine tags_kept_andThen _ _ _ ?_ (fun s2 h2 => tags_kept_ok _ _ (by simpa using h2))
  split
  · split
    · exact tags_kept_tagout _ _ _ _ hsp
    · exact tags_kept_ok _ _ hsp
  · refine tags_kept_andThen _ _ _ ?_ (fun s2 h2 => ?_)
    · split
      · exact tags_kept_tagout _ _ _ _ hsp
      · exact tags_kept_ok _ _ hsp
    · show tags_kept s
        (if tag.length > 0 then
          tagout (puts s2 (if e then xmlescape value else value)) ('/' :: tag) []
        else .ok (puts s2 (if e then xmlescape value else value)))
      by_cases ht : tag.length > 0
      · rw [if_pos ht]
        exact tags_kept_tagout _ _ _ _ (by simpa using h2)
      · rw [if_neg ht]
        exact tags_kept_ok _ _ (by simpa using h2)

theorem tags_kept_xmlprintf (s : dfxml_writer) (tag attr : Str) (f : Option Str) :
    tags_kept s (xmlprintf s tag attr f) := by
  have hsp : ∀ x ∈ s.tags, x ∈ (spaces s).tags := by
    rw [spaces_eq]; simp
  unfold xmlprintf
  refine tags_kept_andThen _ _ _ (tags_kept_tagout _ _ _ _ hsp) (fun s2 h2 => ?_)
  cases f with
  | none => exact tags_kept_fatal _ _ _ h2
  | some ret =>
    refine tags_kept_andThen _ _ _ (tags_kept_tagout _ _ _ _ (by simpa using h2))
      (fun s3 h3 => tags_kept_ok _ _ (by simpa using h3))

theorem tags_kept_pop (s : dfxml_writer) : tags_kept s (pop s) := by
  have h0 : pop s =
      match s.tag_stack with
      | [] => .fatal .assertion s
      | tag :: rest =>
        (tagout (spaces (with_stack s rest)) ('/' :: tag) []).andThen fun s =>
          .ok (puts s ['\n']) := rfl
  rw [h0]
  split
  · exact fun x hx => hx
  · refine tags_kept_andThen _ _ _ (tags_kept_tagout _ _ _ _ ?_)
      (fun s3 h3 => tags_kept_ok _ _ (by simpa using h3))
    rw [spaces_eq]; simp

theorem tags_kept_push (s : dfxml_writer) (tag attr : Str) : tags_kept s (push s tag attr) := by
  rw [push_eq]
  split
  · intro x hx; simpa [Outcome.state] using hx
  · intro x hx
    simp only [Outcome.state, with_tags_tags, mem_set_insert]
    exact Or.inr hx

theorem tags_kept_call (c : Call) (s : dfxml_writer) : tags_kept s (c.run s) := by
  cases c with
  | push tag attr => exact tags_kept_push s tag attr
  | pop => exact tags_kept_pop s
  | set_oneline v =>
    intro x hx
    cases v <;> simpa [Call.run, Outcome.state, set_oneline, spaces_eq] using hx
  | xmlout tag value attr e => exact tags_kept_xmlout s s tag value attr e (fun x hx => hx)
  | xmlprintf tag attr f => exact tags_kept_xmlprintf s tag attr f
  | comment c =>
    intro x hx
    simpa [Call.run, Outcome.state, comment] using hx
  | add_timestamp name t1 now =>
    simp only [Call.run, add_timestamp]
    exact tags_kept_xmlout s _ _ _ _ _ (fun x hx => hx)

theorem tagout_ok_tags (s s' : dfxml_writer) (tag attr : Str)
    (h : tagout s tag attr = .ok s') : s'.tags = set_insert (strip_slash tag) s.tags := by
  rw [tagout_eq] at h
  split at h
  · simp at h
  · simp only [Outcome.ok.injEq] at h
    subst h
    simp

theorem xmlout_ok_tags (s s' : dfxml_writer) (tag value attr : Str) (e : Bool)
    (h : xmlout s tag value attr e = .ok s') (x : Str) :
    x ∈ s'.tags ↔
      x ∈ s.tags ∨ (tag ≠ [] ∧ (x = strip_slash tag ∨ (value ≠ [] ∧ x = tag))) := by
  have hsp : (spaces s).tags = s.tags := by rw [spaces_eq]; simp
  have hlen : ∀ l : Str, l.length > 0 ↔ l ≠ [] := fun l => List.length_pos
  unfold xmlout at h
  simp only [andThen_eq_ok, Outcome.ok.injEq] at h
  obtain ⟨s1, h1, rfl⟩ := h
  rw [puts_tags]
  by_cases hv : value.length = 0
  · have hv' : value = [] := List.length_eq_zero.mp hv
    rw [if_pos hv] at h1
    by_cases ht : tag.length > 0
    · rw [if_pos ht] at h1
      rw [tagout_ok_tags _ _ _ _ h1, mem_set_insert, hsp]
      simp [(hlen tag).mp ht, hv']
      tauto
    · rw [if_neg ht] at h1
      simp only [Outcome.ok.injEq] at h1
      have ht' : tag = [] := by
        by_contra hne; exact ht ((hlen tag).mpr hne)
      rw [← h1, hsp]
      simp [ht']
  · have hv' : value ≠ [] := fun hnil => hv (by rw [hnil]; rfl)
    rw [if_neg hv] at h1
    simp only [andThen_eq_ok] at h1
    obtain ⟨s2, h2, h3⟩ := h1
    by_cases ht : tag.length > 0
    · rw [if_pos ht] at h2
      simp only [ht, if_true] at h3
      rw [tagout_ok_tags _ _ _ _ h3, strip_slash_cons_slash, mem_set_insert, puts_tags,
        tagout_ok_tags _ _ _ _ h2, mem_set_insert, hsp]
      simp [(hlen tag).mp ht, hv']
      tauto
    · rw [if_neg ht] at h2
      simp only [ht, if_false, Outcome.ok.injEq] at h2 h3
      have ht' : tag = [] := by
        by_contra hne; exact ht ((hlen tag).mpr hne)
      rw [← h3, puts_tags, ← h2, hsp]
      simp [ht']

theorem xmlprintf_ok_tags (s s' : dfxml_writer) (tag attr : Str) (f : Option Str)
    (h : xmlprintf s tag attr f = .ok s') (x : Str) :
    x ∈ s'.tags ↔ x ∈ s.tags ∨ x = strip_slash tag ∨ x = tag := by
  have hsp : (spaces s).tags = s.tags := by rw [spaces_eq]; simp
  unfold xmlprintf at h
  simp only [andThen_eq_ok] at h
  obtain ⟨s1, h1, h2⟩ := h
  cases f with
  | none => simp at h2
  | some ret =>
    simp only [andThen_eq_ok, Outcome.ok.injEq] at h2
    obtain ⟨s2, h3, rfl⟩ := h2
    rw [puts_tags, tagout_ok_tags _ _ _ _ h3, strip_slash_cons_slash, mem_set_insert, puts_tags,
      tagout_ok_tags _ _ _ _ h1, mem_set_insert, hsp]
    tauto

theorem pop_ok_tags (s s' : dfxml_writer) (h : pop s = .ok s') :
    ∃ top, s.tag_stack = top :: s'.tag_stack ∧ ∀ x, x ∈ s'.tags ↔ x ∈ s.tags ∨ x = top := by
  have h0 : pop s =
      match s.tag_stack with
      | [] => .fatal .assertion s
      | tag :: rest =>
        (tagout (spaces (with_stack s rest)) ('/' :: tag) []).andThen fun s =>
          .ok (puts s ['\n']) := rfl
  rw [h0] at h
  cases hs : s.tag_stack with
  | nil => rw [hs] at h; simp at h
  | cons top rest =>
    rw [hs] at h
    simp only [andThen_eq_ok, Outcome.ok.injEq] at h
    obtain ⟨s1, h1, rfl⟩ := h
    refine ⟨top, ?_, fun x => ?_⟩
    · rw [puts_tag_stack, tagout_tag_stack _ _ _ _ h1, spaces_eq]
      simp
    · rw [puts_tags, tagout_ok_tags _ _ _ _ h1, strip_slash_cons_slash, mem_set_insert,
        spaces_eq]
      simp
      tauto

theorem call_registry (c : Call) (s s1 : dfxml_writer) (h : c.run s = .ok s1)
    (hp : plain_name c) (hst : ∀ t ∈ s.tag_stack, t ∈ s.tags) :
    (∀ x, x ∈ s1.tags ↔ x ∈ s.tags ∨ x ∈ named_by c) ∧
    (∀ t ∈ s1.tag_stack, t ∈ s1.tags) := by
  have hkept : ∀ x ∈ s.tags, x ∈ s1.tags := by
    have := tags_kept_call c s
    rw [h] at this
    exact this
  cases c with
  | push tag attr =>
    simp only [Call.run, push_eq] at h
    split at h
    · simp at h
    · simp only [Outcome.ok.injEq] at h
      subst h
      have hs : strip_slash tag = tag := strip_slash_of_head tag hp
      refine ⟨fun x => ?_, fun t ht => ?_⟩
      · simp only [with_tags_tags, mem_set_insert, hs, named_by, List.mem_singleton]
        tauto
      · simp only [with_tags_tag_stack, with_stack_tag_stack, List.mem_cons] at ht
        simp only [with_tags_tags, mem_set_insert, hs]
        rcases ht with rfl | ht
        · exact Or.inl rfl
        · exact Or.inr (hst t ht)
  | pop =>
    obtain ⟨top, ht, htags⟩ := pop_ok_tags s s1 h
    have htop : top ∈ s.tags := hst top (by rw [ht]; exact List.mem_cons_self _ _)
    refine ⟨fun x => ?_, fun t hmem => ?_⟩
    · rw [htags x]
      simp only [named_by, List.not_mem_nil, or_false]
      constructor
      · rintro (hx | rfl)
        · exact hx
        · exact htop
      · exact Or.inl
    · exact hkept t (hst t (by rw [ht]; exact List.mem_cons_of_mem _ hmem))
  | set_oneline v =>
    simp only [Call.run, Outcome.ok.injEq] at h
    subst h
    have e : (set_oneline s v).tags = s.tags := by cases v <;> simp [set_oneline, spaces_eq]
    refine ⟨fun x => by simp [e, named_by], fun t ht => ?_⟩
    rw [set_oneline_tag_stack] at ht
    rw [e]; exact hst t ht
  | xmlout tag value attr e =>
    have hs : strip_slash tag = tag := strip_slash_of_head tag hp
    refine ⟨fun x => ?_, fun t ht => ?_⟩
    · rw [xmlout_ok_tags s s1 tag value attr e h x, hs]
      by_cases htag : tag = []
      · simp [named_by, htag]
      · simp only [named_by, htag, if_false, List.mem_singleton, ne_eq, not_false_eq_true,
          true_and]
        tauto
    · rw [xmlout_tag_stack _ _ _ _ _ _ h] at ht
      exact hkept t (hst t ht)
  | xmlprintf tag attr f =>
    have hs : strip_slash tag = tag := strip_slash_of_head tag hp.2
    refine ⟨fun x => ?_, fun t ht => ?_⟩
    · rw [xmlprintf_ok_tags s s1 tag attr f h x, hs]
      simp only [named_by, hp.1, if_false, List.mem_singleton]
      tauto
    · rw [xmlprintf_tag_stack _ _ _ _ _ h] at ht
      exact hkept t (hst t ht)
  | comment c =>
    simp only [Call.run, Outcome.ok.injEq] at h
    subst h
    have e : (comment s c).tags = s.tags := by simp [comment]
    refine ⟨fun x => by simp [e, named_by], fun t ht => ?_⟩
    rw [comment_tag_stack] at ht
    rw [e]; exact hst t ht
  | add_timestamp name t1 now =>
    refine ⟨fun x => ?_, fun t ht => ?_⟩
    · simp only [Call.run, add_timestamp] at h
      rw [xmlout_ok_tags _ s1 _ _ _ _ h x]
      simp [named_by, strip_slash]
    · rw [add_timestamp_tag_stack _ _ _ _ _ h] at ht
      exact hkept t (hst t ht)

theorem run_calls_registry (cs : List Call) :
    ∀ s s' : dfxml_writer, run_calls s cs = .ok s' → (∀ c ∈ cs, plain_name c) →
      (∀ t ∈ s.tag_stack, t ∈ s.tags) →
      ∀ x, x ∈ s'.tags ↔ x ∈ s.tags ∨ x ∈ names_of cs := by
  induction cs with
  | nil =>
    intro s s' h _ _ x
    simp only [run_calls, Outcome.ok.injEq] at h
    subst h
    simp [names_of]
  | cons c cs ih =>
    intro s s' h hp hst x
    simp only [run_calls, andThen_eq_ok] at h
    obtain ⟨s1, h1, h2⟩ := h
    obtain ⟨htags, hst1⟩ := call_registry c s s1 h1 (hp c (List.mem_cons_self _ _)) hst
    rw [ih s1 s' h2 (fun d hd => hp d (List.mem_cons_of_mem _ hd)) hst1 x, htags x]
    simp only [names_of, List.map_cons, List.flatten_cons, List.mem_append]
    tauto

theorem fresh_tags (s : dfxml_writer) (h : Fresh s) : s.tags = [] := by
  rcases h with ⟨now0, now1, rfl⟩ | ⟨name, makeDTD, now0, now1, h⟩
  · simp [new_stdout]
  · simp only [new_file, Bool.not_true, Bool.false_eq_true, if_false, Outcome.ok.injEq] at h
    subst h
    simp

/-- Claim C14, counterexample: on a fresh document the successful call `push("/x")`
leaves the registry holding `x` and not the name `/x` that was passed, and the
successful call `xmlprintf("", "", "v")` with an empty name leaves the registry
holding the empty name. -/
theorem registry_differs_from_names_passed :
    run_calls (new_stdout ⟨0, 0⟩ ⟨0, 0⟩) [Call.push ['/', 'x'] []]
      = .ok (run_calls (new_stdout ⟨0, 0⟩ ⟨0, 0⟩) [Call.push ['/', 'x'] []]).state ∧
    (run_calls (new_stdout ⟨0, 0⟩ ⟨0, 0⟩) [Call.push ['/', 'x'] []]).state.tags = [['x']] ∧
    names_of [Call.push ['/', 'x'] []] = [['/', 'x']] ∧
    run_calls (new_stdout ⟨0, 0⟩ ⟨0, 0⟩) [Call.xmlprintf [] [] (some ['v'])]
      = .ok (run_calls (new_stdout ⟨0, 0⟩ ⟨0, 0⟩) [Call.xmlprintf [] [] (some ['v'])]).state ∧
    (run_calls (new_stdout ⟨0, 0⟩ ⟨0, 0⟩) [Call.xmlprintf [] [] (some ['v'])]).state.tags
      = [[]] ∧
    names_of [Call.xmlprintf [] [] (some ['v'])] = [] := by
  decide

/-- Claim C14, amended: the registry never shrinks: for each of the operations `push`,
`pop`, `xmlout`, `xmlprintf`, `comment`, `set_oneline`, `add_timestamp`, in every
state, every name registered before the call is registered after it (also when
the call stops the process); and after any sequence of successful calls on a
fresh document in which no element name begins with `/` and no name passed to
`xmlprintf` is empty, the registry is exactly the set of the names passed to
`push`, the non-empty names passed to `xmlout` and `xmlprintf`, and `timestamp`
if `add_timestamp` was called. -/
theorem registry_grows_and_records :
    (∀ (c : Call) (s : dfxml_writer), ∀ x ∈ s.tags, x ∈ (c.run s).state.tags) ∧
    (∀ (s0 s : dfxml_writer) (cs : List Call), Fresh s0 → (∀ c ∈ cs, plain_name c) →
      run_calls s0 cs = .ok s → ∀ x, x ∈ s.tags ↔ x ∈ names_of cs) := by
  refine ⟨fun c s => tags_kept_call c s, fun s0 s cs hf hp hr x => ?_⟩
  have h := run_calls_registry cs s0 s hr hp (by rw [fresh_tag_stack s0 hf]; simp) x
  rw [fresh_tags s0 hf] at h
  simpa using h

/-- Instance of the amended C14: `push("a")`, `xmlout("x", "5")`, `pop()` on a fresh
document leave the registry holding `a` and `x`. -/
theorem registry_grows_and_records_witness :
    ['x'] ∈ (run_calls (new_stdout ⟨0, 0⟩ ⟨0, 0⟩)
        [Call.push ['a'] [], Call.xmlout ['x'] ['5'] [] true, Call.pop]).state.tags ↔
      ['x'] ∈ names_of [Call.push ['a'] [], Call.xmlout ['x'] ['5'] [] true, Call.pop] :=
  registry_grows_and_records.2 (new_stdout ⟨0, 0⟩ ⟨0, 0⟩) _
    [Call.push ['a'] [], Call.xmlout ['x'] ['5'] [] true, Call.pop]
    (Or.inl ⟨⟨0, 0⟩, ⟨0, 0⟩, rfl⟩)
    (by
      intro c hc
      simp only [List.mem_cons, List.mem_singleton, List.mem_nil_iff, or_false] at hc
      rcases hc with rfl | rfl | rfl
      · show (['a'] : Str).head? ≠ some '/'
        decide
      · show (['x'] : Str).head? ≠ some '/'
        decide
      · trivial)
    (by decide) ['x']

/-! ## push followed by pop -/

/-- Claim C21: for every document state with `oneline` off and every name without a
space, `push(name)` succeeds and the `pop()` that follows it succeeds and leaves
the tag stack as it was before the push; the opening tag and the closing tag
are each written on a line of their own behind the same indentation, two spaces
per element that was open before the push, which is the stack depth after
popping. -/
theorem push_then_pop (s : dfxml_writer) (name attr : Str)
    (hone : s.oneline = false) (hspace : ' ' ∉ name) :
    ∃ s1 s2, push s name attr = .ok s1 ∧ pop s1 = .ok s2 ∧
      run_calls s [Call.push name attr, Call.pop] = .ok s2 ∧
      s2.tag_stack = s.tag_stack ∧
      output s1 = output s ++ List.replicate (2 * s.tag_stack.length) ' '
        ++ tag_text name attr ++ ['\n'] ∧
      output s2 = output s1 ++ List.replicate (2 * s.tag_stack.length) ' '
        ++ (['<', '/'] ++ name ++ ['>']) ++ ['\n'] ∧
      2 * s.tag_stack.length = 2 * s2.tag_stack.length := by
  have hpush := push_eq s name attr
  rw [if_neg hspace] at hpush
  generalize hs1 : with_tags (with_stack
    (puts s (indentation s ++ tag_text name attr ++ (if s.oneline then [] else ['\n'])))
    (name :: s.tag_stack)) (set_insert (strip_slash name) s.tags) = s1 at hpush
  have e_stack : s1.tag_stack = name :: s.tag_stack := by rw [← hs1]; simp
  have e_one : s1.oneline = false := by rw [← hs1]; simpa using hone
  have e_out : output s1 = output s ++ List.replicate (2 * s.tag_stack.length) ' '
      ++ tag_text name attr ++ ['\n'] := by
    rw [← hs1]; simp [indentation, hone]
  have hpop := pop_eq s1 name s.tag_stack e_stack hspace
  generalize hs2 : with_tags (with_stack
    (puts s1 ((if s1.oneline then [] else List.replicate (2 * s.tag_stack.length) ' ')
      ++ (['<', '/'] ++ name ++ ['>']) ++ ['\n'])) s.tag_stack) (set_insert name s1.tags) = s2
    at hpop
  have e_stack2 : s2.tag_stack = s.tag_stack := by rw [← hs2]; simp
  refine ⟨s1, s2, hpush, hpop, ?_, e_stack2, e_out, ?_, by rw [e_stack2]⟩
  · simp only [run_calls, Call.run, hpush, hpop, Outcome.andThen]
  · rw [← hs2]; simp [e_one]

/-- Instance of C21: `push("b")` and `pop()` in the state reached by `push("a")` on a
fresh document. -/
theorem push_then_pop_witness :
    ∃ s1 s2, push (push (new_stdout ⟨0, 0⟩ ⟨0, 0⟩) ['a'] []).state ['b'] [] = .ok s1 ∧
      pop s1 = .ok s2 ∧
      run_calls (push (new_stdout ⟨0, 0⟩ ⟨0, 0⟩) ['a'] []).state
        [Call.push ['b'] [], Call.pop] = .ok s2 ∧
      s2.tag_stack = (push (new_stdout ⟨0, 0⟩ ⟨0, 0⟩) ['a'] []).state.tag_stack ∧
      output s1 = output (push (new_stdout ⟨0, 0⟩ ⟨0, 0⟩) ['a'] []).state
        ++ List.replicate
          (2 * (push (new_stdout ⟨0, 0⟩ ⟨0, 0⟩) ['a'] []).state.tag_stack.length) ' '
        ++ tag_text ['b'] [] ++ ['\n'] ∧
      output s2 = output s1
        ++ List.replicate
          (2 * (push (new_stdout ⟨0, 0⟩ ⟨0, 0⟩) ['a'] []).state.tag_stack.length) ' '
        ++ (['<', '/'] ++ ['b'] ++ ['>']) ++ ['\n'] ∧
      2 * (push (new_stdout ⟨0, 0⟩ ⟨0, 0⟩) ['a'] []).state.tag_stack.length
        = 2 * s2.tag_stack.length :=
  push_then_pop (push (new_stdout ⟨0, 0⟩ ⟨0, 0⟩) ['a'] []).state ['b'] [] (by decide)
    (by decide)

end Dfxml
